import Mathlib

/-!
Bloomers: a Bloom filter, its hash engine and its binary codec

A shallow embedding of `src/bloom.hpp`, `src/bloom.cpp` and the codec of
`src/main.cpp`.

Target platform of the embedding: `size_t` is 64 bits wide, `int` is 32 bits
wide, and the machine is little-endian (`std::endian::native ==
std::endian::little`), so `std::memcpy` between an integer and a byte buffer
uses little-endian byte order.

Machine integers are natural numbers, wrapped explicitly where the C++ type
wraps.  An operation whose behaviour C++ leaves undefined (an index outside a
container or a span, a remainder by zero) makes the embedded function return
`none`.  Two places are embedded differently:

* the block loop of `murmur3_32` counts with an `int`; the embedding counts
  with a natural number, which is the same for every key of fewer than
  `2 ^ 33` bytes;
* the final shift of `write_binary_file` can have a shift count of 32 or more;
  the value the machine produces for it is a parameter of the embedding, and
  the theorems hold for every such value.

The floating-point lines of the constructor are embedded twice: as a function
parameter (`bloom_filter.bloom_filter`, enough for the validation), and over a
model of `double` whose special values follow IEEE 754 and whose rounding and
logarithm are parameters (`bloom_filter.bloom_filter_fp`); the worked sizes are
proved for every unit that meets the accuracy stated in `fpu.accurate`, and the
sizing law for every unit that rounds to a stated relative accuracy against
the real numbers (`fpu.accurate_to_real`).
-/

namespace Bloomers

/-! ## Machine arithmetic -/

/-- Wrap-around of `uint8_t`. -/
def u8 (n : Nat) : Nat := n % 2 ^ 8

/-- Wrap-around of `uint16_t`. -/
def u16 (n : Nat) : Nat := n % 2 ^ 16

/-- Wrap-around of `uint32_t`. -/
def u32 (n : Nat) : Nat := n % 2 ^ 32

/-- Wrap-around of `size_t` (64 bits). -/
def usize (n : Nat) : Nat := n % 2 ^ 64

/-- The function `std::rotl` on `uint32_t`, for a rotation `0 < r < 32`. -/
def rotl (x r : Nat) : Nat := u32 ((x <<< r) ||| (x >>> (32 - r)))

/-! ## Hash engine (`bloom.cpp`, anonymous namespace) -/

def shift_8 : Nat := 8
def shift_13 : Nat := 13
def shift_15 : Nat := 15
def shift_16 : Nat := 16

def hash_const1 : Nat := 0xe6546b64
def hash_mult1 : Nat := 5
def hash_const2 : Nat := 0x85ebca6b
def hash_const3 : Nat := 0xc2b2ae35

/-- The constant `cst1` of `murmur3_32`. -/
def cst1 : Nat := 0xcc9e2d51

/-- The constant `cst2` of `murmur3_32`. -/
def cst2 : Nat := 0x1b873593

/-- The call `span.subspan(offset, count)`: undefined unless the window lies
inside the span. -/
def subspan (key : List UInt8) (offset count : Nat) : Option (List UInt8) :=
  if offset + count ≤ key.length then some ((key.drop offset).take count) else none

/-- The call `span.subspan(offset)`: undefined unless `offset ≤ size()`. -/
def subspan_from (key : List UInt8) (offset : Nat) : Option (List UInt8) :=
  if offset ≤ key.length then some (key.drop offset) else none

/-- The value an unsigned integer takes when `std::memcpy` fills it from the
given bytes on the little-endian target: the first byte is the least
significant one. -/
def memcpy_load : List UInt8 → Nat
  | [] => 0
  | b :: rest => b.toNat + 2 ^ 8 * memcpy_load rest

/-- One iteration of the block loop of `murmur3_32` (bloom.cpp 38-51): block
`i` is copied into `tmp`, mixed, and folded into `hash`. -/
def murmur3_32_block (key : List UInt8) (hash i : Nat) : Option Nat :=
  match subspan key (i * 4) 4 with
  | none => none
  | some window =>
    let tmp := memcpy_load window
    let tmp := u32 (tmp * cst1)
    let tmp := rotl tmp shift_15
    let tmp := u32 (tmp * cst2)
    let hash := hash ^^^ tmp
    let hash := rotl hash shift_13
    some (u32 (u32 (hash * hash_mult1) + hash_const1))

/-- The three tail tests of `murmur3_32` (bloom.cpp 58-70) on the bytes left
after the last full block. -/
def murmur3_32_tail (tail : List UInt8) (hash : Nat) : Option Nat :=
  let rem := tail.length
  let tmp : Option Nat :=
    if rem ≥ 3 then
      match tail[2]? with
      | none => none
      | some b => some (0 ^^^ u32 (b.toNat <<< shift_16))
    else some 0
  let tmp : Option Nat :=
    match tmp with
    | none => none
    | some t =>
      if rem ≥ 2 then
        match tail[1]? with
        | none => none
        | some b => some (t ^^^ u32 (b.toNat <<< shift_8))
      else some t
  match tmp with
  | none => none
  | some t =>
    if rem ≥ 1 then
      match tail[0]? with
      | none => none
      | some b =>
        let t := t ^^^ b.toNat
        let t := u32 (t * cst1)
        let t := rotl t shift_15
        let t := u32 (t * cst2)
        some (hash ^^^ t)
    else some hash

/-- The closing lines of `murmur3_32` (bloom.cpp 72-79): the length is folded
in and the state is scrambled. -/
def murmur3_32_final (hash len : Nat) : Nat :=
  let hash := hash ^^^ u32 len
  let hash := hash ^^^ (hash >>> shift_16)
  let hash := u32 (hash * hash_const2)
  let hash := hash ^^^ (hash >>> shift_13)
  let hash := u32 (hash * hash_const3)
  hash ^^^ (hash >>> shift_16)

/-- The function `murmur3_32` of bloom.cpp.  The loop counter runs over
`0 .. nblocks - 1`; the source declares it `int`, which is exact for keys of
fewer than `2 ^ 33` bytes. -/
def murmur3_32 (key : List UInt8) (seed : Nat) : Option Nat :=
  let len := key.length
  let nblocks := len / 4
  ((List.range nblocks).foldlM (murmur3_32_block key) seed).bind fun hash =>
  (subspan_from key (nblocks * 4)).bind fun tail =>
  (murmur3_32_tail tail hash).bind fun hash =>
  some (murmur3_32_final hash len)

def hash_seed1 : Nat := 0x9747b28c
def hash_seed2 : Nat := 0x12345678

/-- The function `hash_pair` of bloom.cpp. -/
def hash_pair (data : List UInt8) : Option (Nat × Nat) :=
  match murmur3_32 data hash_seed1 with
  | none => none
  | some hash1 =>
    match murmur3_32 data hash_seed2 with
    | none => none
    | some hash2 => some (hash1, hash2)

/-! ## The filter (`bloom.hpp`, `bloom.cpp`) -/

/-- The data members of class `bloom_filter`. -/
structure bloom_filter where
  m_bitset : List Bool
  m_bits : Nat
  m_khashes : Nat
deriving DecidableEq, Repr

/-- The expression `(hash1 + idx * hash2) % m_bits` shared by `insert` and
`possibly_contains`: `idx` is a `size_t`, so the sum is formed in 64-bit
unsigned arithmetic; the remainder is undefined when `m_bits` is zero. -/
def bit_idx (m_bits hash1 hash2 idx : Nat) : Option Nat :=
  if m_bits = 0 then none else some (usize (hash1 + usize (idx * hash2)) % m_bits)

/-- The body of the loop of `bloom_filter::insert`: `m_bitset[bit_idx] = true`,
undefined for an index outside the vector. -/
def insert_step (hash1 hash2 : Nat) (f : bloom_filter) (idx : Nat) : Option bloom_filter :=
  match bit_idx f.m_bits hash1 hash2 idx with
  | none => none
  | some j =>
    if j < f.m_bitset.length then some { f with m_bitset := f.m_bitset.set j true }
    else none

/-- The method `bloom_filter::insert`. -/
def bloom_filter.insert (f : bloom_filter) (data : List UInt8) : Option bloom_filter :=
  match hash_pair data with
  | none => none
  | some (hash1, hash2) => (List.range f.m_khashes).foldlM (insert_step hash1 hash2) f

/-- The algorithm `std::ranges::all_of`: it stops at the first element that
fails the test. -/
def all_of (test : Nat → Option Bool) : List Nat → Option Bool
  | [] => some true
  | i :: rest =>
    match test i with
    | none => none
    | some false => some false
    | some true => all_of test rest

/-- The lambda of `bloom_filter::possibly_contains`: `m_bitset[bit_idx]`,
undefined for an index outside the vector. -/
def contains_test (f : bloom_filter) (hash1 hash2 idx : Nat) : Option Bool :=
  match bit_idx f.m_bits hash1 hash2 idx with
  | none => none
  | some j => f.m_bitset[j]?

/-- The method `bloom_filter::possibly_contains`. -/
def bloom_filter.possibly_contains (f : bloom_filter) (data : List UInt8) : Option Bool :=
  match hash_pair data with
  | none => none
  | some (hash1, hash2) => all_of (contains_test f hash1 hash2) (List.range f.m_khashes)

/-- The function `insert_into_filter` of main.cpp: the items are inserted one
after the other. -/
def insert_into_filter (f : bloom_filter) : List (List UInt8) → Option bloom_filter
  | [] => some f
  | input :: rest =>
    match f.insert input with
    | none => none
    | some g => insert_into_filter g rest

/-- The method `bloom_filter::set_bitset` of bloom.hpp: the vector is replaced,
whatever its length. -/
def bloom_filter.set_bitset (f : bloom_filter) (bitset : List Bool) : bloom_filter :=
  { f with m_bitset := bitset }

/-- A call of one of the public mutating methods of `bloom_filter`. -/
inductive mutation where
  | insert (data : List UInt8)
  | set_bitset (bitset : List Bool)

/-- The effect of one call on the filter. -/
def bloom_filter.apply (f : bloom_filter) : mutation → Option bloom_filter
  | .insert data => f.insert data
  | .set_bitset bitset => some (f.set_bitset bitset)

/-- The effect of a sequence of calls, made one after the other. -/
def bloom_filter.run (f : bloom_filter) : List mutation → Option bloom_filter
  | [] => some f
  | call :: rest =>
    match f.apply call with
    | none => none
    | some g => g.run rest

/-- The indices `possibly_contains` and `insert` derive for an item in a
filter of `m_bits` bits and `m_khashes` hash functions, in the order of the
loop. -/
def derived_indices (m_bits m_khashes : Nat) (data : List UInt8) : Option (List Nat) :=
  match hash_pair data with
  | none => none
  | some (hash1, hash2) => (List.range m_khashes).mapM (bit_idx m_bits hash1 hash2)

/-! ## Construction from capacity (`bloom.cpp` 95-122) -/

/-- The values of a C++ `double`: the finite ones are rational numbers, and
there are two infinities and the NaNs.  Only the comparisons of the
constructor are embedded; they are exact on these values. -/
inductive double where
  | nan
  | neg_inf
  | pos_inf
  | finite (q : ℚ)

/-- The comparison `a < b` of two `double` values; every comparison with a
NaN is false. -/
def double.lt : double → double → Bool
  | .finite a, .finite b => decide (a < b)
  | .neg_inf, .finite _ => true
  | .neg_inf, .pos_inf => true
  | .finite _, .pos_inf => true
  | _, _ => false

/-- The `std::runtime_error` thrown by the constructor, by the test that
throws it. -/
inductive runtime_error where
  | expected_items (value : Nat)
  | false_positive_rate (value : double)

/-- The conversion of a signed value of the caller to the `size_t` member of
`bloom_filter::expected_items` (as in `const size_t expected_items = -1;`). -/
def to_size_t (value : Int) : Nat := (value % 2 ^ 64).toNat

/-- The constructor `bloom_filter::bloom_filter(expected_items,
false_positive_rate)`.  The member `expected_items.value` is a `size_t`, here a
natural number.  The floating-point lines 111-119 that compute `m_bits` and
`m_khashes` are the parameter `sizing`; `m_bitset.resize(m_bits)` yields
`m_bits` cleared bits, the allocation being taken to succeed. -/
def bloom_filter.bloom_filter (sizing : Nat → double → Nat × Nat)
    (expected_items : Nat) (false_positive_rate : double) :
    Except runtime_error bloom_filter :=
  if expected_items < 0 then
    .error (.expected_items expected_items)
  else if false_positive_rate.lt (.finite 0.0) || (double.finite 1.0).lt false_positive_rate then
    .error (.false_positive_rate false_positive_rate)
  else
    let m_bits := (sizing expected_items false_positive_rate).1
    let m_khashes := (sizing expected_items false_positive_rate).2
    .ok { m_bits := m_bits, m_khashes := m_khashes, m_bitset := List.replicate m_bits false }

/-! ## The sizing arithmetic (`bloom.cpp` 111-119) over a model of `double`

The special values follow IEEE 754; zeros are not signed, which is exact for
these lines: the only divisor that can be zero is `num_items`, a converted
`size_t`, hence `+0.0`, and a zero is only ever converted to the integer 0. -/

/-- The floating-point operations of the target where the special values do
not fix them: `rnd q` is the `double` an arithmetic operation returns when its
exact result is the non-zero number `q` (the nearest `double`, an infinity on
overflow); `log q` is `std::log` at a finite `q > 0`; `ln2` is the constant
`std::numbers::ln2`. -/
structure fpu where
  rnd : ℚ → double
  log : ℚ → double
  ln2 : ℚ

/-- The unary minus of `double`. -/
def double.neg : double → double
  | .nan => .nan
  | .neg_inf => .pos_inf
  | .pos_inf => .neg_inf
  | .finite q => .finite (-q)

/-- The product `x * y` of two `double` values. -/
def fpu.mul (u : fpu) (x y : double) : double :=
  match x, y with
  | .nan, _ => .nan
  | _, .nan => .nan
  | .finite a, .finite b => if a * b = 0 then .finite 0 else u.rnd (a * b)
  | .finite a, .pos_inf => if a = 0 then .nan else if 0 < a then .pos_inf else .neg_inf
  | .finite a, .neg_inf => if a = 0 then .nan else if 0 < a then .neg_inf else .pos_inf
  | .pos_inf, .finite b => if b = 0 then .nan else if 0 < b then .pos_inf else .neg_inf
  | .neg_inf, .finite b => if b = 0 then .nan else if 0 < b then .neg_inf else .pos_inf
  | .pos_inf, .pos_inf => .pos_inf
  | .pos_inf, .neg_inf => .neg_inf
  | .neg_inf, .pos_inf => .neg_inf
  | .neg_inf, .neg_inf => .pos_inf

/-- The quotient `x / y` of two `double` values, a zero divisor being `+0.0`. -/
def fpu.div (u : fpu) (x y : double) : double :=
  match x, y with
  | .nan, _ => .nan
  | _, .nan => .nan
  | .finite a, .finite b =>
    if b = 0 then (if a = 0 then .nan else if 0 < a then .pos_inf else .neg_inf)
    else if a = 0 then .finite 0
    else u.rnd (a / b)
  | .finite _, .pos_inf => .finite 0
  | .finite _, .neg_inf => .finite 0
  | .pos_inf, .finite b => if 0 ≤ b then .pos_inf else .neg_inf
  | .neg_inf, .finite b => if 0 ≤ b then .neg_inf else .pos_inf
  | .pos_inf, .pos_inf => .nan
  | .pos_inf, .neg_inf => .nan
  | .neg_inf, .pos_inf => .nan
  | .neg_inf, .neg_inf => .nan

/-- The function `std::log`: a NaN for a negative argument, minus infinity at
zero. -/
def fpu.std_log (u : fpu) : double → double
  | .nan => .nan
  | .neg_inf => .nan
  | .pos_inf => .pos_inf
  | .finite q => if q < 0 then .nan else if q = 0 then .neg_inf else u.log q

/-- The function `std::round`: to the nearest integer, halfway cases away from
zero; the result is exact. -/
def double.round : double → double
  | .finite q => .finite (if 0 ≤ q then (⌊q + 1 / 2⌋ : ℤ) else -(⌊-q + 1 / 2⌋ : ℤ))
  | x => x

/-- The conversion `static_cast<size_t>(x)`: the value is truncated toward
zero, and the conversion is undefined unless the truncated value is a
`size_t`. -/
def double.to_size_t : double → Option Nat
  | .finite q =>
    if q ≤ -1 then none
    else if q < 0 then some 0
    else if q < 2 ^ 64 then some ⌊q⌋.toNat
    else none
  | _ => none

/-- The conversion `static_cast<double>(n)` of a `size_t`: exact up to
`2 ^ 53`, rounded above. -/
def fpu.of_size_t (u : fpu) (n : Nat) : double :=
  if n ≤ 2 ^ 53 then .finite n else u.rnd n

/-- The variable `num_bits` of the constructor (bloom.cpp 114-115). -/
def num_bits (u : fpu) (expected_items : Nat) (false_positive_rate : double) : double :=
  let ln2 := double.finite u.ln2
  let num_items := u.of_size_t expected_items
  u.div (u.mul num_items (u.std_log false_positive_rate)).neg (u.mul ln2 ln2)

/-- The variable `num_hashes` of the constructor (bloom.cpp 116): it is formed
from the `double` `num_bits`. -/
def num_hashes (u : fpu) (expected_items : Nat) (false_positive_rate : double) : double :=
  let ln2 := double.finite u.ln2
  let num_items := u.of_size_t expected_items
  u.mul (u.div (num_bits u expected_items false_positive_rate) num_items) ln2

/-- The two conversions of the constructor (bloom.cpp 118-119): `m_bits` from
`num_bits`, then `m_khashes` from `std::round(num_hashes)`. -/
def sizing_lines (u : fpu) (expected_items : Nat) (false_positive_rate : double) :
    Option (Nat × Nat) :=
  match (num_bits u expected_items false_positive_rate).to_size_t with
  | none => none
  | some m_bits =>
    match (num_hashes u expected_items false_positive_rate).round.to_size_t with
    | none => none
    | some m_khashes => some (m_bits, m_khashes)

/-- The constructor `bloom_filter::bloom_filter(expected_items,
false_positive_rate)` with its sizing lines spelled out over the model of
`double`; the result is `none` when a conversion is undefined.  Where
`sizing_lines` is defined this is `bloom_filter.bloom_filter` on the pair it
yields. -/
def bloom_filter.bloom_filter_fp (u : fpu) (expected_items : Nat)
    (false_positive_rate : double) : Option (Except runtime_error Bloomers.bloom_filter) :=
  if expected_items < 0 then
    some (.error (.expected_items expected_items))
  else if false_positive_rate.lt (.finite 0.0) || (double.finite 1.0).lt false_positive_rate then
    some (.error (.false_positive_rate false_positive_rate))
  else
    match sizing_lines u expected_items false_positive_rate with
    | none => none
    | some (m_bits, m_khashes) =>
      some (.ok { m_bits := m_bits, m_khashes := m_khashes,
                  m_bitset := List.replicate m_bits false })

/-- The `double` is finite and its value lies between `lo` and `hi`. -/
def double.within (x : double) (lo hi : ℚ) : Prop :=
  ∃ r : ℚ, x = .finite r ∧ lo ≤ r ∧ r ≤ hi

/-- The accuracy the worked sizes ask of a floating-point unit: a result of
magnitude between `1 / 1000` and `10 ^ 6` is rounded with a relative error of
at most `10 ^ (-6)`; `std::numbers::ln2` is 0.693147 to six places; and
`std::log` is correct to six places within `10 ^ (-9)` of the rates 0.65, 0.70
and 0.01 (whose logarithms are -0.430783, -0.356675 and -4.605170). -/
structure fpu.accurate (u : fpu) : Prop where
  rnd_near : ∀ q : ℚ, 1 / 1000 ≤ |q| → |q| ≤ 10 ^ 6 →
    (u.rnd q).within (q - |q| / 10 ^ 6) (q + |q| / 10 ^ 6)
  ln2_near : 693147 / 10 ^ 6 ≤ u.ln2 ∧ u.ln2 ≤ 693148 / 10 ^ 6
  log_near_065 : ∀ p : ℚ, |p - 65 / 100| ≤ 1 / 10 ^ 9 →
    (u.log p).within (-(430785 / 10 ^ 6)) (-(430781 / 10 ^ 6))
  log_near_070 : ∀ p : ℚ, |p - 70 / 100| ≤ 1 / 10 ^ 9 →
    (u.log p).within (-(356677 / 10 ^ 6)) (-(356673 / 10 ^ 6))
  log_near_001 : ∀ p : ℚ, |p - 1 / 100| ≤ 1 / 10 ^ 9 →
    (u.log p).within (-(4605171 / 10 ^ 6)) (-(4605169 / 10 ^ 6))

/-- A unit that meets `fpu.accurate`: results are not rounded and the
logarithm is read from a table of the three rates. -/
def table_unit : fpu where
  rnd := fun q => .finite q
  log := fun p =>
    if |p - 65 / 100| ≤ 1 / 10 ^ 9 then .finite (-(430783 / 10 ^ 6))
    else if |p - 70 / 100| ≤ 1 / 10 ^ 9 then .finite (-(356675 / 10 ^ 6))
    else .finite (-(4605170 / 10 ^ 6))
  ln2 := 6931472 / 10 ^ 7

/-- The real value the sizing law names for the bit count:
`-(n * ln p) / (ln 2)^2`, over the real numbers. -/
noncomputable def law_bit_value (n : Nat) (p : ℚ) : ℝ :=
  -((n : ℝ) * Real.log p) / (Real.log 2) ^ 2

/-- The real value of the hash count as bloom.cpp 116 forms it, from the
untruncated bit value: `(law_bit_value / n) * ln 2`, over the real numbers. -/
noncomputable def law_hash_value (n : Nat) (p : ℚ) : ℝ :=
  law_bit_value n p / n * Real.log 2

/-- Accuracy `e` of a floating-point unit against the real numbers: a result of
magnitude between `10 ^ (-30)` and `10 ^ 30` is rounded to a finite value with a
relative error of at most `e`, and `std::numbers::ln2` is the real `ln 2` to a
relative `e`.  An IEEE double unit has this accuracy for `e = 2 ^ (-53)`. -/
structure fpu.accurate_to_real (u : fpu) (e : ℝ) : Prop where
  rnd_near : ∀ q : ℚ, 1 / 10 ^ 30 ≤ |q| → |q| ≤ 10 ^ 30 →
    ∃ r : ℚ, u.rnd q = .finite r ∧ |(r : ℝ) - (q : ℝ)| ≤ |(q : ℝ)| * e
  ln2_near : |(u.ln2 : ℝ) - Real.log 2| ≤ Real.log 2 * e

/-- The logarithm of the unit at the rate `p` is finite and is the real
`ln p` to a relative `e`. -/
def fpu.log_accurate_at (u : fpu) (e : ℝ) (p : ℚ) : Prop :=
  ∃ L : ℚ, u.log p = .finite L ∧ |(L : ℝ) - Real.log p| ≤ |Real.log p| * e

/-- The `double` is finite and its value lies between `t * lo` and `t * hi`,
for a real `t`. -/
def double.near (x : double) (t lo hi : ℝ) : Prop :=
  ∃ r : ℚ, x = .finite r ∧ t * lo ≤ (r : ℝ) ∧ (r : ℝ) ≤ t * hi

/-- A unit that meets `fpu.accurate` and `fpu.accurate_to_real` and whose
logarithm is accurate at the rate `1 / 2`: results are not rounded, `ln 2` is
`287209 / 414355`, and the logarithm is read from the table of `table_unit`
extended by the rate `1 / 2`. -/
def half_unit : fpu where
  rnd := fun q => .finite q
  log := fun p => if p = 1 / 2 then .finite (-(287209 / 414355)) else table_unit.log p
  ln2 := 287209 / 414355

/-! ## Binary codec (`main.cpp`) -/

/-- The template `byteswap<T>` for an unsigned `T` of `size` bytes: the loop
moves byte `i` of the value to byte `size - 1 - i` of the result. -/
def byteswap (size value : Nat) : Nat :=
  (List.range size).foldl
    (fun uresult i =>
      (uresult ||| (((value >>> (8 * i)) &&& 0xFF) <<< (8 * (size - 1 - i)))) % 2 ^ (8 * size))
    0

/-- The template `to_big_endian<T>`: on the little-endian target it is
`byteswap`. -/
def to_big_endian (size value : Nat) : Nat := byteswap size value

/-- The bytes `std::memcpy` stores for an unsigned integer of `size` bytes on
the little-endian target: least significant byte first. -/
def memcpy_store : Nat → Nat → List UInt8
  | 0, _ => []
  | size + 1, value => UInt8.ofNat (value % 256) :: memcpy_store size (value / 256)

/-- The state of the packing loop of `write_binary_file`: the bytes put so
far, `buffer` and `bit_count`. -/
structure pack_state where
  out : List UInt8
  buffer : Nat
  bit_count : Nat

/-- One iteration of the packing loop (main.cpp 100-109). -/
def pack_step (st : pack_state) (bit : Bool) : pack_state :=
  let buffer := u8 (u32 (st.buffer <<< 1) ||| (if bit then 1 else 0))
  let bit_count := st.bit_count + 1
  if bit_count = 8 then
    { out := st.out ++ [UInt8.ofNat buffer], buffer := 0, bit_count := 0 }
  else
    { out := st.out, buffer := buffer, bit_count := bit_count }

/-- The statement `buffer <<= (sizeof(uint8_t) - bit_count)` (main.cpp 112):
`sizeof(uint8_t)` is 1 and the difference is formed in `size_t`; `buffer` is
promoted to `int`.  A shift count of 32 or more is outside what C++ defines for
`int`; the value the machine then produces is `wide_shift buffer count`. -/
def final_shift (wide_shift : Nat → Nat → Nat) (buffer bit_count : Nat) : Nat :=
  let count := usize (1 + 2 ^ 64 - bit_count)
  u8 (if count < 32 then u32 (buffer <<< count) else wide_shift buffer count)

/-- The function `write_binary_file`, as the bytes it writes to a file it
could open: the identifier, the version, the hash count and the bit count
through `to_big_endian` and `std::memcpy`, then the packed bits. -/
def write_binary_file (wide_shift : Nat → Nat → Nat) (filter : bloom_filter) : List UInt8 :=
  let identifier : List UInt8 := [0x43, 0x43, 0x42, 0x46]
  let version_num := to_big_endian 2 1
  let hash_functions := to_big_endian 2 (u16 filter.m_khashes)
  let bits := to_big_endian 4 (u32 filter.m_bits)
  let header := identifier ++ memcpy_store 2 version_num ++ memcpy_store 2 hash_functions
    ++ memcpy_store 4 bits
  let st := filter.m_bitset.foldl pack_step { out := [], buffer := 0, bit_count := 0 }
  if st.bit_count > 0 then
    header ++ st.out ++ [UInt8.ofNat (final_shift wide_shift st.buffer st.bit_count)]
  else
    header ++ st.out

/-- An input file stream: the bytes not yet read and the fail state. -/
structure ifstream where
  rest : List UInt8
  failed : Bool

/-- The call `file.read(buffer, count)`: a stream in the fail state reads
nothing; otherwise the bytes read overwrite the front of the buffer, and a
stream that ends before `count` bytes enters the fail state. -/
def ifstream.read (file : ifstream) (buffer : List UInt8) (count : Nat) :
    ifstream × List UInt8 :=
  if file.failed then (file, buffer)
  else if count ≤ file.rest.length then
    ({ rest := file.rest.drop count, failed := false },
      file.rest.take count ++ buffer.drop count)
  else
    ({ rest := [], failed := true }, file.rest ++ buffer.drop file.rest.length)

/-- The ways a call of `read_binary_file` ends: it returns `std::nullopt`, it
stops in a failed `assert`, or it returns a filter. -/
inductive read_outcome where
  | nullopt
  | assertion_failed
  | returned (filter : bloom_filter)
deriving DecidableEq

/-- The inner loop of `read_binary_file` (main.cpp 169-175): bits of `byte`
are pushed from bit 0 upwards while the vector has fewer than `bits`
entries. -/
def unpack_byte (bits byte : Nat) (bitset : List Bool) : List Bool :=
  (List.range 8).foldl
    (fun bitset bit_idx =>
      if bitset.length < bits then bitset ++ [decide ((byte >>> bit_idx) &&& 1 ≠ 0)]
      else bitset)
    bitset

/-- One iteration of the outer loop of `read_binary_file` (main.cpp 164-176):
one byte is read into `byte_buff` and unpacked. -/
def read_window (bits : Nat) (st : ifstream × List UInt8 × List Bool) (_byte_idx : Nat) :
    ifstream × List UInt8 × List Bool :=
  let (file, byte_buff) := st.1.read st.2.1 1
  let byte := memcpy_load (byte_buff.take 1)
  (file, byte_buff, unpack_byte bits byte st.2.2)

/-- The function `read_binary_file`.  The argument is `none` for a file that
cannot be opened and the content of the file otherwise; `ndebug` tells whether
`assert` is compiled out. -/
def read_binary_file (ndebug : Bool) (content : Option (List UInt8)) : read_outcome :=
  match content with
  | none => .nullopt
  | some bytes =>
    let file : ifstream := { rest := bytes, failed := false }
    let expected_identifier : List UInt8 := [0x43, 0x43, 0x42, 0x46]
    let (file, identifier) := file.read [0, 0, 0, 0] 4
    if !ndebug && identifier ≠ expected_identifier then .assertion_failed
    else
      let buffer_list : List UInt8 := [0, 0, 0, 0]
      let (file, buffer_list) := file.read buffer_list 2
      let _version_number := to_big_endian 2 (memcpy_load (buffer_list.take 2))
      let (file, buffer_list) := file.read buffer_list 2
      let hash_functions := to_big_endian 2 (memcpy_load (buffer_list.take 2))
      let (file, buffer_list) := file.read buffer_list 4
      let bits := to_big_endian 4 (memcpy_load (buffer_list.take 4))
      let windows := bits / 8 + (if bits % 8 ≠ 0 then 1 else 0)
      let st := (List.range windows).foldl (read_window bits) (file, [0], [])
      .returned { m_bits := bits, m_bitset := st.2.2, m_khashes := hash_functions }

/-- The bit count a stream declares: bytes 8 to 11 read as a big-endian
number (a missing byte counts as zero). -/
def declared_bit_count (stream : List UInt8) : Nat :=
  2 ^ 24 * (stream.getD 8 0).toNat + 2 ^ 16 * (stream.getD 9 0).toNat
    + 2 ^ 8 * (stream.getD 10 0).toNat + (stream.getD 11 0).toNat

/-- A stream is truncated when it is shorter than the 12-byte header or
shorter than the header and the bit region it declares. -/
def truncated (stream : List UInt8) : Prop :=
  stream.length < 12 ∨ stream.length < 12 + (declared_bit_count stream + 7) / 8

/-! ## The reference MurmurHash3 x86 32-bit algorithm, after its description -/

/-- Mixing of one key word: multiply by `0xcc9e2d51`, rotate left by 15,
multiply by `0x1b873593`, all modulo `2 ^ 32`. -/
def reference_mix_k (k : Nat) : Nat :=
  u32 (rotl (u32 (k * 0xcc9e2d51)) 15 * 0x1b873593)

/-- Folding of one mixed word into the state: xor, rotate left by 13, times 5
plus `0xe6546b64`, modulo `2 ^ 32`. -/
def reference_mix_h (h k : Nat) : Nat :=
  u32 (rotl (h ^^^ reference_mix_k k) 13 * 5 + 0xe6546b64)

/-- Block `i` of the key read as a little-endian 32-bit word. -/
def reference_block (key : List UInt8) (i : Nat) : Nat :=
  (key.getD (4 * i) 0).toNat + 2 ^ 8 * (key.getD (4 * i + 1) 0).toNat
    + 2 ^ 16 * (key.getD (4 * i + 2) 0).toNat + 2 ^ 24 * (key.getD (4 * i + 3) 0).toNat

/-- The last 1 to 3 bytes of the key, combined byte by byte, mixed, and xored
into the state; nothing is done when no byte is left. -/
def reference_tail (tail : List UInt8) (h : Nat) : Nat :=
  match tail with
  | [b0, b1, b2] =>
    h ^^^ reference_mix_k ((b2.toNat <<< 16) ^^^ (b1.toNat <<< 8) ^^^ b0.toNat)
  | [b0, b1] => h ^^^ reference_mix_k ((b1.toNat <<< 8) ^^^ b0.toNat)
  | [b0] => h ^^^ reference_mix_k b0.toNat
  | _ => h

/-- The body of the reference algorithm: every full 4-byte block is folded
into the state, then the bytes after the last full block. -/
def reference_body (key : List UInt8) (seed : Nat) : Nat :=
  let nblocks := key.length / 4
  let h := (List.range nblocks).foldl (fun h i => reference_mix_h h (reference_block key i)) seed
  reference_tail (key.drop (4 * nblocks)) h

/-- The avalanche finalizer of the reference algorithm. -/
def reference_fmix32 (h : Nat) : Nat :=
  let h := h ^^^ (h >>> 16)
  let h := u32 (h * 0x85ebca6b)
  let h := h ^^^ (h >>> 13)
  let h := u32 (h * 0xc2b2ae35)
  h ^^^ (h >>> 16)

/-- The reference MurmurHash3 x86 32-bit hash of a byte sequence. -/
def reference_murmur3_x86_32 (key : List UInt8) (seed : Nat) : Nat :=
  reference_fmix32 (reference_body key seed ^^^ u32 key.length)

/-! # Theorems -/

/-! ## Hash engine -/

theorem u32_lt (n : Nat) : u32 n < 2 ^ 32 := Nat.mod_lt _ (by norm_num)

theorem u32_of_lt {n : Nat} (h : n < 2 ^ 32) : u32 n = n := Nat.mod_eq_of_lt h

theorem byte_lt (b : UInt8) : b.toNat < 256 := b.toNat_lt_size

theorem mix_eq_reference (hash k : Nat) :
    u32 (u32 (rotl (hash ^^^ u32 (rotl (u32 (k * cst1)) shift_15 * cst2)) shift_13 * hash_mult1)
        + hash_const1) = reference_mix_h hash k := by
  unfold reference_mix_h reference_mix_k cst1 cst2 shift_15 shift_13 hash_mult1 hash_const1
  generalize rotl (hash ^^^ u32 (rotl (u32 (k * 3432918353)) 15 * 461845907)) 13 = x
  unfold u32
  omega

theorem subspan_window (key : List UInt8) (i : Nat) (h : i * 4 + 4 ≤ key.length) :
    subspan key (i * 4) 4
      = some [key.getD (4 * i) 0, key.getD (4 * i + 1) 0, key.getD (4 * i + 2) 0,
          key.getD (4 * i + 3) 0] := by
  unfold subspan
  rw [if_pos h, List.drop_eq_getElem_cons (by omega : i * 4 < key.length),
    List.drop_eq_getElem_cons (by omega : i * 4 + 1 < key.length),
    List.drop_eq_getElem_cons (by omega : i * 4 + 1 + 1 < key.length),
    List.drop_eq_getElem_cons (by omega : i * 4 + 1 + 1 + 1 < key.length)]
  simp only [List.take_succ_cons, List.take_zero, List.getD_eq_getElem?_getD]
  rw [List.getElem?_eq_getElem (by omega : 4 * i < key.length),
    List.getElem?_eq_getElem (by omega : 4 * i + 1 < key.length),
    List.getElem?_eq_getElem (by omega : 4 * i + 2 < key.length),
    List.getElem?_eq_getElem (by omega : 4 * i + 3 < key.length)]
  simp only [Option.getD_some, Nat.mul_comm i 4]

theorem murmur3_32_block_eq_reference (key : List UInt8) (hash i : Nat)
    (h : i * 4 + 4 ≤ key.length) :
    murmur3_32_block key hash i = some (reference_mix_h hash (reference_block key i)) := by
  unfold murmur3_32_block
  rw [subspan_window key i h]
  simp only [memcpy_load]
  rw [mix_eq_reference]
  unfold reference_block
  congr 2
  ring

theorem foldlM_eq_some_foldl {σ : Type} (f : σ → Nat → Option σ) (g : σ → Nat → σ) :
    ∀ (l : List Nat) (init : σ), (∀ i ∈ l, ∀ s, f s i = some (g s i)) →
      l.foldlM f init = some (l.foldl g init)
  | [], _, _ => rfl
  | i :: rest, init, h => by
    rw [List.foldlM_cons, h i (List.mem_cons_self i rest) init]
    exact foldlM_eq_some_foldl f g rest (g init i)
      (fun j hj s => h j (List.mem_cons_of_mem i hj) s)

theorem u32_byte_shiftLeft (b : UInt8) (r : Nat) (hr : r ≤ 24) :
    u32 (b.toNat <<< r) = b.toNat <<< r := by
  apply u32_of_lt
  rw [Nat.shiftLeft_eq]
  have hb := byte_lt b
  calc b.toNat * 2 ^ r < 2 ^ 8 * 2 ^ r := by
        apply Nat.mul_lt_mul_of_pos_right hb (Nat.two_pow_pos r)
    _ = 2 ^ (8 + r) := by rw [Nat.pow_add]
    _ ≤ 2 ^ 32 := Nat.pow_le_pow_right (by norm_num) (by omega)

theorem murmur3_32_tail_eq_reference (tail : List UInt8) (hash : Nat) (h : tail.length < 4) :
    murmur3_32_tail tail hash = some (reference_tail tail hash) := by
  match tail, h with
  | [], _ => simp [murmur3_32_tail, reference_tail]
  | [b0], _ =>
    simp [murmur3_32_tail, reference_tail, reference_mix_k, cst1, cst2, shift_15]
  | [b0, b1], _ =>
    simp [murmur3_32_tail, reference_tail, reference_mix_k, cst1, cst2, shift_15, shift_8,
      u32_byte_shiftLeft]
  | [b0, b1, b2], _ =>
    simp [murmur3_32_tail, reference_tail, reference_mix_k, cst1, cst2, shift_15, shift_8,
      shift_16, u32_byte_shiftLeft]
  | _ :: _ :: _ :: _ :: _, h => simp only [List.length_cons] at h; omega

/-- The block loop followed by the tail of `murmur3_32` computes the body of
the reference algorithm. -/
theorem murmur3_32_body_eq_reference (key : List UInt8) (seed : Nat) :
    (((List.range (key.length / 4)).foldlM (murmur3_32_block key) seed).bind fun hash =>
      (subspan_from key (key.length / 4 * 4)).bind fun tail =>
        murmur3_32_tail tail hash) = some (reference_body key seed) := by
  have hloop := foldlM_eq_some_foldl (murmur3_32_block key)
    (fun h i => reference_mix_h h (reference_block key i)) (List.range (key.length / 4)) seed
    (fun i hi s => murmur3_32_block_eq_reference key s i (by
      have := List.mem_range.mp hi
      omega))
  have hsub : subspan_from key (key.length / 4 * 4) = some (key.drop (key.length / 4 * 4)) := by
    unfold subspan_from
    rw [if_pos (by omega)]
  rw [hloop, hsub]
  simp only [Option.some_bind]
  rw [murmur3_32_tail_eq_reference _ _ (by rw [List.length_drop]; omega)]
  unfold reference_body
  simp only [Nat.mul_comm 4]

theorem murmur3_32_final_eq_reference (hash len : Nat) :
    murmur3_32_final hash len = reference_fmix32 (hash ^^^ u32 len) := by
  unfold murmur3_32_final reference_fmix32 shift_16 shift_13 hash_const2 hash_const3
  exact Eq.refl _

theorem murmur3_32_eq_reference (key : List UInt8) (seed : Nat) :
    murmur3_32 key seed = some (reference_murmur3_x86_32 key seed) := by
  have h := murmur3_32_body_eq_reference key seed
  unfold murmur3_32
  simp only [Option.bind_eq_some] at h ⊢
  obtain ⟨hash, h1, tail, h2, h3⟩ := h
  exact ⟨hash, h1, tail, h2, reference_body key seed, h3, rfl⟩

theorem murmur3_32_final_lt (hash len : Nat) : murmur3_32_final hash len < 2 ^ 32 := by
  unfold murmur3_32_final
  apply Nat.xor_lt_two_pow (u32_lt _)
  rw [Nat.shiftRight_eq_div_pow]
  exact lt_of_le_of_lt (Nat.div_le_self _ _) (u32_lt _)

theorem reference_murmur3_lt (key : List UInt8) (seed : Nat) :
    reference_murmur3_x86_32 key seed < 2 ^ 32 :=
  murmur3_32_final_lt (reference_body key seed) key.length

theorem hash_pair_eq (data : List UInt8) :
    hash_pair data = some (reference_murmur3_x86_32 data hash_seed1,
      reference_murmur3_x86_32 data hash_seed2) := by
  simp [hash_pair, murmur3_32_eq_reference]

/-! ## The filter -/

/-- The index the source computes for round `idx`, when `m_bits` is not zero. -/
theorem bit_idx_of_pos (m_bits hash1 hash2 idx : Nat) (h : 1 ≤ m_bits) :
    bit_idx m_bits hash1 hash2 idx = some (usize (hash1 + usize (idx * hash2)) % m_bits) := by
  unfold bit_idx
  rw [if_neg (by omega)]

/-- The loop of `insert`, run for `k` rounds on a filter whose vector has
`m_bits` entries: it completes, leaves the sizes alone, and sets exactly the
bits of the `k` computed indices. -/
theorem insert_loop_spec (hash1 hash2 : Nat) (f : bloom_filter)
    (hlen : f.m_bitset.length = f.m_bits) (hbits : 1 ≤ f.m_bits) (k : Nat) :
    ∃ g, (List.range k).foldlM (insert_step hash1 hash2) f = some g ∧
      g.m_bits = f.m_bits ∧ g.m_khashes = f.m_khashes ∧
      g.m_bitset.length = f.m_bitset.length ∧
      ∀ j, g.m_bitset[j]? = some true ↔
        (f.m_bitset[j]? = some true ∨
          ∃ i, i < k ∧ j = usize (hash1 + usize (i * hash2)) % f.m_bits) := by
  induction k with
  | zero =>
    refine ⟨f, rfl, rfl, rfl, rfl, fun j => ?_⟩
    constructor
    · intro h; exact Or.inl h
    · rintro (h | ⟨i, hi, _⟩)
      · exact h
      · omega
  | succ k ih =>
    obtain ⟨g, hg, hb, hk, hl, hset⟩ := ih
    have hlt : usize (hash1 + usize (k * hash2)) % f.m_bits < g.m_bitset.length := by
      rw [hl, hlen]
      exact Nat.mod_lt _ (by omega)
    refine ⟨{ g with m_bitset :=
        (g.m_bitset.set (usize (hash1 + usize (k * hash2)) % f.m_bits) true) },
      ?_, hb, hk, ?_, fun j => ?_⟩
    · rw [List.range_succ, List.foldlM_append, hg]
      simp only [Option.bind_eq_bind, Option.some_bind, List.foldlM_cons, List.foldlM_nil]
      unfold insert_step
      rw [hb, bit_idx_of_pos _ _ _ _ hbits]
      simp only [hlt, if_true, Option.bind_eq_bind, Option.some_bind]
      rfl
    · simp only [List.length_set]
      exact hl
    · simp only [List.getElem?_set]
      by_cases hj : usize (hash1 + usize (k * hash2)) % f.m_bits = j
      · rw [if_pos hj, if_pos hlt]
        constructor
        · intro _
          exact Or.inr ⟨k, Nat.lt_succ_self k, hj.symm⟩
        · intro _
          rfl
      · rw [if_neg hj, hset j]
        constructor
        · rintro (h | ⟨i, hi, e⟩)
          · exact Or.inl h
          · exact Or.inr ⟨i, Nat.lt_succ_of_lt hi, e⟩
        · rintro (h | ⟨i, hi, e⟩)
          · exact Or.inl h
          · rcases Nat.lt_succ_iff_lt_or_eq.mp hi with hi | hi
            · exact Or.inr ⟨i, hi, e⟩
            · subst hi
              exact absurd e.symm hj

/-- The postcondition of `insert` with the 64-bit sum of the source. -/
theorem insert_spec (f : bloom_filter) (data : List UInt8)
    (hlen : f.m_bitset.length = f.m_bits) (hbits : 1 ≤ f.m_bits) :
    ∃ g, f.insert data = some g ∧
      g.m_bits = f.m_bits ∧ g.m_khashes = f.m_khashes ∧
      g.m_bitset.length = f.m_bitset.length ∧
      ∀ j, g.m_bitset[j]? = some true ↔
        (f.m_bitset[j]? = some true ∨
          ∃ i, i < f.m_khashes ∧
            j = usize (reference_murmur3_x86_32 data hash_seed1
              + usize (i * reference_murmur3_x86_32 data hash_seed2)) % f.m_bits) := by
  unfold bloom_filter.insert
  rw [hash_pair_eq]
  exact insert_loop_spec _ _ f hlen hbits f.m_khashes

theorem all_of_eq_true (test : Nat → Option Bool) :
    ∀ l : List Nat, (∀ i ∈ l, test i = some true) → all_of test l = some true
  | [], _ => rfl
  | i :: rest, h => by
    unfold all_of
    rw [h i (List.mem_cons_self i rest)]
    exact all_of_eq_true test rest (fun j hj => h j (List.mem_cons_of_mem i hj))

/-- The query answers `true` as soon as every computed index is set. -/
theorem possibly_contains_of_set (g : bloom_filter) (data : List UInt8) (hbits : 1 ≤ g.m_bits)
    (h : ∀ i, i < g.m_khashes →
      g.m_bitset[usize (reference_murmur3_x86_32 data hash_seed1
        + usize (i * reference_murmur3_x86_32 data hash_seed2)) % g.m_bits]? = some true) :
    g.possibly_contains data = some true := by
  unfold bloom_filter.possibly_contains
  rw [hash_pair_eq]
  apply all_of_eq_true
  intro i hi
  unfold contains_test
  rw [bit_idx_of_pos _ _ _ _ hbits]
  exact h i (List.mem_range.mp hi)

/-- Inserting a list of items completes, keeps the sizes, keeps every bit that
was set, and sets every index of every inserted item. -/
theorem insert_into_filter_spec :
    ∀ (items : List (List UInt8)) (f : bloom_filter),
      f.m_bitset.length = f.m_bits → 1 ≤ f.m_bits →
      ∃ g, insert_into_filter f items = some g ∧
        g.m_bits = f.m_bits ∧ g.m_khashes = f.m_khashes ∧
        g.m_bitset.length = f.m_bitset.length ∧
        (∀ j : Nat, f.m_bitset[j]? = some true → g.m_bitset[j]? = some true) ∧
        ∀ x ∈ items, ∀ i : Nat, i < f.m_khashes →
          g.m_bitset[usize (reference_murmur3_x86_32 x hash_seed1
            + usize (i * reference_murmur3_x86_32 x hash_seed2)) % f.m_bits]? = some true
  | [], f, _, _ => ⟨f, rfl, rfl, rfl, rfl, fun _ h => h, fun x hx => absurd hx (List.not_mem_nil x)⟩
  | item :: rest, f, hlen, hbits => by
    obtain ⟨g, hg, hb, hk, hl, hset⟩ := insert_spec f item hlen hbits
    obtain ⟨g2, hg2, hb2, hk2, hl2, hkeep, hall⟩ :=
      insert_into_filter_spec rest g (by rw [hl, hb, hlen]) (by rw [hb]; exact hbits)
    refine ⟨g2, ?_, by rw [hb2, hb], by rw [hk2, hk], by rw [hl2, hl], ?_, ?_⟩
    · unfold insert_into_filter
      rw [hg]
      exact hg2
    · intro j hj
      exact hkeep j ((hset j).mpr (Or.inl hj))
    · intro x hx i hi
      rcases List.mem_cons.mp hx with hx | hx
      · subst hx
        exact hkeep _ ((hset _).mpr (Or.inr ⟨i, hi, rfl⟩))
      · have := hall x hx i (by rw [hk]; exact hi)
        rw [hb] at this
        exact this

/-- Claim C1 (no false negatives).  For every filter whose bit array has length
`bit_count ≥ 1`, whatever its hash count and bit contents, every list of items
passed to `insert` one after the other, and every item `x` of that list: the
insertions complete and `possibly_contains x` then returns `true`. -/
theorem no_false_negatives (f : bloom_filter) (items : List (List UInt8)) (x : List UInt8)
    (hlen : f.m_bitset.length = f.m_bits) (hbits : 1 ≤ f.m_bits) (hx : x ∈ items) :
    ∃ g, insert_into_filter f items = some g ∧ g.possibly_contains x = some true := by
  obtain ⟨g, hg, hb, hk, _, _, hall⟩ := insert_into_filter_spec items f hlen hbits
  refine ⟨g, hg, possibly_contains_of_set g x (by rw [hb]; exact hbits) ?_⟩
  intro i hi
  rw [hb]
  exact hall x hx i (by rw [← hk]; exact hi)

theorem no_false_negatives_witness :
    ((⟨[false, false], 2, 1⟩ : bloom_filter).m_bitset.length = 2 ∧ 1 ≤ 2 ∧
      ([0x61] : List UInt8) ∈ [[0x6f], [0x61]]) ∧
    ∃ g, insert_into_filter ⟨[false, false], 2, 1⟩ [[0x6f], [0x61]] = some g ∧
      g.possibly_contains [0x61] = some true :=
  ⟨⟨rfl, by decide, by decide⟩,
    no_false_negatives ⟨[false, false], 2, 1⟩ [[0x6f], [0x61]] [0x61] rfl (by decide)
      (by decide)⟩

/-- For fewer than `2 ^ 32` rounds the 64-bit sum of the source does not wrap. -/
theorem usize_sum_eq (hash1 hash2 i : Nat) (h1 : hash1 < 2 ^ 32) (h2 : hash2 < 2 ^ 32)
    (hi : i < 2 ^ 32) : usize (hash1 + usize (i * hash2)) = hash1 + i * hash2 := by
  have hmul : i * hash2 ≤ (2 ^ 32 - 1) * (2 ^ 32 - 1) :=
    Nat.mul_le_mul (by omega) (by omega)
  unfold usize
  rw [Nat.mod_eq_of_lt (by omega : i * hash2 < 2 ^ 64), Nat.mod_eq_of_lt (by omega)]

/-- Claim C3 (postcondition of `insert`).  For every filter with
`bits.length == bit_count ≥ 1` and `hash_count < 2 ^ 32` and every item, the two
hashes `h1`, `h2` are computed, `insert` completes, and afterwards bit `j` is set
if and only if it was set before or `j = (h1 + i * h2) mod bit_count` for some
`i < hash_count`, the sum taken over the integers; no bit is cleared, and
`bit_count`, `hash_count` and the length of the bit array are unchanged. -/
theorem insert_postcondition (f : bloom_filter) (item : List UInt8)
    (hlen : f.m_bitset.length = f.m_bits) (hbits : 1 ≤ f.m_bits)
    (hk : f.m_khashes < 2 ^ 32) :
    ∃ h1 h2 g, murmur3_32 item 0x9747b28c = some h1 ∧ murmur3_32 item 0x12345678 = some h2 ∧
      f.insert item = some g ∧
      (∀ j : Nat, g.m_bitset[j]? = some true ↔
        (f.m_bitset[j]? = some true ∨
          ∃ i, i < f.m_khashes ∧ j = (h1 + i * h2) % f.m_bits)) ∧
      (∀ j : Nat, f.m_bitset[j]? = some true → g.m_bitset[j]? = some true) ∧
      g.m_bits = f.m_bits ∧ g.m_khashes = f.m_khashes ∧
      g.m_bitset.length = f.m_bitset.length := by
  obtain ⟨g, hg, hb, hkh, hl, hset⟩ := insert_spec f item hlen hbits
  have key : ∀ j : Nat, g.m_bitset[j]? = some true ↔
      (f.m_bitset[j]? = some true ∨
        ∃ i, i < f.m_khashes ∧ j = (reference_murmur3_x86_32 item hash_seed1
          + i * reference_murmur3_x86_32 item hash_seed2) % f.m_bits) := by
    intro j
    rw [hset j]
    constructor
    · rintro (h | ⟨i, hi, e⟩)
      · exact Or.inl h
      · refine Or.inr ⟨i, hi, ?_⟩
        rw [usize_sum_eq _ _ i (reference_murmur3_lt _ _) (reference_murmur3_lt _ _)
          (by omega)] at e
        exact e
    · rintro (h | ⟨i, hi, e⟩)
      · exact Or.inl h
      · refine Or.inr ⟨i, hi, ?_⟩
        rw [usize_sum_eq _ _ i (reference_murmur3_lt _ _) (reference_murmur3_lt _ _)
          (by omega)]
        exact e
  exact ⟨reference_murmur3_x86_32 item hash_seed1, reference_murmur3_x86_32 item hash_seed2, g,
    murmur3_32_eq_reference item _, murmur3_32_eq_reference item _, hg, key,
    fun j hj => (key j).mpr (Or.inl hj), hb, hkh, hl⟩

theorem insert_postcondition_witness :
    ∃ h1 h2 g, murmur3_32 [0x61] 0x9747b28c = some h1 ∧ murmur3_32 [0x61] 0x12345678 = some h2 ∧
      (⟨[false, true, false], 3, 2⟩ : bloom_filter).insert [0x61] = some g ∧
      (∀ j : Nat, g.m_bitset[j]? = some true ↔
        ((⟨[false, true, false], 3, 2⟩ : bloom_filter).m_bitset[j]? = some true ∨
          ∃ i, i < (⟨[false, true, false], 3, 2⟩ : bloom_filter).m_khashes ∧
            j = (h1 + i * h2) % (⟨[false, true, false], 3, 2⟩ : bloom_filter).m_bits)) ∧
      (∀ j : Nat, (⟨[false, true, false], 3, 2⟩ : bloom_filter).m_bitset[j]? = some true →
        g.m_bitset[j]? = some true) ∧
      g.m_bits = (⟨[false, true, false], 3, 2⟩ : bloom_filter).m_bits ∧
      g.m_khashes = (⟨[false, true, false], 3, 2⟩ : bloom_filter).m_khashes ∧
      g.m_bitset.length = (⟨[false, true, false], 3, 2⟩ : bloom_filter).m_bitset.length :=
  insert_postcondition ⟨[false, true, false], 3, 2⟩ [0x61] rfl (by decide) (by decide)

/-- Claim C4 (the hash is MurmurHash3 x86 32-bit).  For every byte sequence and
every seed, `murmur3_32` completes, no `subspan` or index leaving the key, and
returns the value of the reference algorithm, which is below `2 ^ 32`; the hash
of the empty sequence with seed 0 is 0. -/
theorem murmur3_32_is_reference (key : List UInt8) (seed : Nat) :
    murmur3_32 key seed = some (reference_murmur3_x86_32 key seed) ∧
      reference_murmur3_x86_32 key seed < 2 ^ 32 ∧
      murmur3_32 [] 0 = some 0 :=
  ⟨murmur3_32_eq_reference key seed, reference_murmur3_lt key seed, by decide⟩

/-! ## Construction from capacity -/

/-- Claim C5 (rates outside `[0, 1]` are rejected).  For every
`false_positive_rate` strictly below 0.0 or strictly above 1.0 and every
`expected_items`, the constructor throws its false-positive-rate error and
builds no filter; the outcome is the same for every sizing computation, which
is not reached. -/
theorem rate_out_of_range_rejected (sizing : Nat → double → Nat × Nat)
    (expected_items : Nat) (rate : double)
    (h : rate.lt (.finite 0.0) = true ∨ (double.finite 1.0).lt rate = true) :
    bloom_filter.bloom_filter sizing expected_items rate
      = .error (.false_positive_rate rate) := by
  unfold bloom_filter.bloom_filter
  rw [if_neg (Nat.not_lt_zero expected_items)]
  rw [if_pos (by
    rcases h with h | h
    · rw [h]; rfl
    · rw [h]; exact Bool.or_true _)]

theorem rate_out_of_range_rejected_witness :
    ((double.finite 1.1).lt (.finite 0.0) = true ∨
        (double.finite 1.0).lt (double.finite 1.1) = true) ∧
      bloom_filter.bloom_filter (fun _ _ => (958, 7)) 100 (.finite 1.1)
        = .error (.false_positive_rate (.finite 1.1)) :=
  ⟨Or.inr (by unfold double.lt; exact decide_eq_true (by norm_num)),
    rate_out_of_range_rejected (fun _ _ => (958, 7)) 100 (.finite 1.1)
      (Or.inr (by unfold double.lt; exact decide_eq_true (by norm_num)))⟩

/-- Claim C6, the code at `expected_items = -1` and rate 0.01.  The value
reaches the constructor as the `size_t` `2 ^ 64 - 1`; the test `value < 0` does
not fire, so the validation throws no expected-items error, and the outcome is
what the sizing lines make of `2 ^ 64 - 1`. -/
theorem negative_expected_items_passes_validation :
    to_size_t (-1) = 2 ^ 64 - 1 ∧
    ∀ sizing : Nat → double → Nat × Nat,
      (∀ value, bloom_filter.bloom_filter sizing (to_size_t (-1)) (.finite 0.01)
        ≠ .error (.expected_items value)) ∧
      bloom_filter.bloom_filter sizing (to_size_t (-1)) (.finite 0.01)
        = .ok { m_bits := (sizing (2 ^ 64 - 1) (.finite 0.01)).1,
                m_khashes := (sizing (2 ^ 64 - 1) (.finite 0.01)).2,
                m_bitset := List.replicate (sizing (2 ^ 64 - 1) (.finite 0.01)).1 false } := by
  have e : to_size_t (-1) = 2 ^ 64 - 1 := by decide
  have h0 : (double.finite 0.01).lt (.finite 0.0) = false := by
    unfold double.lt; exact decide_eq_false (by norm_num)
  have h1 : (double.finite 1.0).lt (double.finite 0.01) = false := by
    unfold double.lt; exact decide_eq_false (by norm_num)
  have run : ∀ sizing : Nat → double → Nat × Nat,
      bloom_filter.bloom_filter sizing (to_size_t (-1)) (.finite 0.01)
        = .ok { m_bits := (sizing (2 ^ 64 - 1) (.finite 0.01)).1,
                m_khashes := (sizing (2 ^ 64 - 1) (.finite 0.01)).2,
                m_bitset := List.replicate (sizing (2 ^ 64 - 1) (.finite 0.01)).1 false } := by
    intro sizing
    rw [e]
    unfold bloom_filter.bloom_filter
    rw [if_neg (Nat.not_lt_zero _), h0, h1]
    rfl
  refine ⟨e, fun sizing => ⟨fun value hv => ?_, run sizing⟩⟩
  rw [run sizing] at hv
  cases hv

/-! ## Binary codec -/

/-- Claim C2, the code on an 8-bit filter.  Writing the filter whose only set
bit is bit 0 and reading the file back returns a filter whose only set bit is
bit 7, not the filter written: the writer puts the first bit in the high end of
the byte and the reader takes the first bit from the low end. -/
theorem round_trip_reverses_byte :
    ∀ wide_shift : Nat → Nat → Nat,
      write_binary_file wide_shift
          ⟨[true, false, false, false, false, false, false, false], 8, 1⟩
        = [0x43, 0x43, 0x42, 0x46, 0, 1, 0, 1, 0, 0, 0, 8, 0x80] ∧
      read_binary_file false (some (write_binary_file wide_shift
          ⟨[true, false, false, false, false, false, false, false], 8, 1⟩))
        = .returned ⟨[false, false, false, false, false, false, false, true], 8, 1⟩ ∧
      read_binary_file false (some (write_binary_file wide_shift
          ⟨[true, false, false, false, false, false, false, false], 8, 1⟩))
        ≠ .returned ⟨[true, false, false, false, false, false, false, false], 8, 1⟩ := by
  intro wide_shift
  have e : write_binary_file wide_shift
      ⟨[true, false, false, false, false, false, false, false], 8, 1⟩
        = [0x43, 0x43, 0x42, 0x46, 0, 1, 0, 1, 0, 0, 0, 8, 0x80] := by rfl
  rw [e]
  exact ⟨rfl, by decide, by decide⟩

/-- Claim C9, the code on a 1-bit filter.  For the filter whose single bit is
set, the bit region written is the one byte `0x01`, not `0x80`: the left-over
bit stays in the lowest position of the final byte. -/
theorem final_byte_not_shifted :
    ∀ wide_shift : Nat → Nat → Nat,
      (write_binary_file wide_shift ⟨[true], 1, 1⟩).drop 12 = [0x01] ∧
      (write_binary_file wide_shift ⟨[true], 1, 1⟩).drop 12 ≠ [0x80] := by
  intro wide_shift
  have e : (write_binary_file wide_shift ⟨[true], 1, 1⟩).drop 12 = [0x01] := by rfl
  rw [e]
  exact ⟨rfl, by decide⟩

theorem and_255 (x : Nat) : x &&& 255 = x % 256 := by
  have h := Nat.and_pow_two_sub_one_eq_mod x 8
  norm_num at h
  exact h

theorem mul_or_eq_add (i a b : Nat) (hb : b < 2 ^ i) : 2 ^ i * a ||| b = 2 ^ i * a + b :=
  (Nat.mul_add_lt_is_or hb a).symm

/-- The function `byteswap<uint16_t>` exchanges the two bytes. -/
theorem byteswap_two (v : Nat) (h : v < 2 ^ 16) :
    byteswap 2 v = v % 256 * 256 + v / 256 := by
  have h1 : v / 256 % 256 = v / 256 := Nat.mod_eq_of_lt (by omega)
  have hx : v % 256 < 256 := Nat.mod_lt _ (by norm_num)
  have hy : v / 256 < 256 := by omega
  unfold byteswap
  simp only [List.range_succ, List.range_zero, List.nil_append, List.cons_append,
    List.foldl_cons, List.foldl_nil, and_255, Nat.shiftLeft_eq, Nat.shiftRight_eq_div_pow,
    Nat.zero_or]
  norm_num
  rw [h1]
  generalize v % 256 = x at hx ⊢
  generalize v / 256 = y at hy ⊢
  have e : x * 256 % 65536 = 2 ^ 8 * x := by omega
  rw [e, mul_or_eq_add 8 _ _ (by omega)]
  omega

/-- The function `byteswap<uint32_t>` reverses the four bytes. -/
theorem byteswap_four (v : Nat) (h : v < 2 ^ 32) :
    byteswap 4 v = v % 256 * 16777216 + v / 256 % 256 * 65536 + v / 65536 % 256 * 256
      + v / 16777216 := by
  have h3 : v / 16777216 % 256 = v / 16777216 := Nat.mod_eq_of_lt (by omega)
  have h0 : v % 256 < 256 := Nat.mod_lt _ (by norm_num)
  have h1 : v / 256 % 256 < 256 := Nat.mod_lt _ (by norm_num)
  have h2 : v / 65536 % 256 < 256 := Nat.mod_lt _ (by norm_num)
  have h4 : v / 16777216 < 256 := by omega
  unfold byteswap
  simp only [List.range_succ, List.range_zero, List.nil_append, List.cons_append,
    List.foldl_cons, List.foldl_nil, and_255, Nat.shiftLeft_eq, Nat.shiftRight_eq_div_pow,
    Nat.zero_or]
  norm_num
  rw [h3]
  generalize v % 256 = a0 at h0 ⊢
  generalize v / 256 % 256 = a1 at h1 ⊢
  generalize v / 65536 % 256 = a2 at h2 ⊢
  generalize v / 16777216 = a3 at h4 ⊢
  have e0 : a0 * 16777216 % 4294967296 = 2 ^ 24 * a0 := by omega
  rw [e0, mul_or_eq_add 24 _ _ (by omega)]
  have e1 : (2 ^ 24 * a0 + a1 * 65536) % 4294967296 = 2 ^ 16 * (a0 * 256 + a1) := by omega
  rw [e1, mul_or_eq_add 16 _ _ (by omega)]
  have e2 : (2 ^ 16 * (a0 * 256 + a1) + a2 * 256) % 4294967296
      = 2 ^ 8 * (a0 * 65536 + a1 * 256 + a2) := by omega
  rw [e2, mul_or_eq_add 8 _ _ (by omega)]
  omega

theorem memcpy_store_big_endian_two (v : Nat) (h : v < 2 ^ 16) :
    memcpy_store 2 (to_big_endian 2 v) = [UInt8.ofNat (v / 256), UInt8.ofNat (v % 256)] := by
  unfold to_big_endian
  rw [byteswap_two v h]
  simp only [memcpy_store]
  have hx : v % 256 < 256 := Nat.mod_lt _ (by norm_num)
  have hy : v / 256 < 256 := by omega
  generalize v % 256 = x at hx ⊢
  generalize v / 256 = y at hy ⊢
  have e0 : (x * 256 + y) % 256 = y := by omega
  have e1 : (x * 256 + y) / 256 % 256 = x := by omega
  rw [e0, e1]

theorem memcpy_store_big_endian_four (v : Nat) (h : v < 2 ^ 32) :
    memcpy_store 4 (to_big_endian 4 v)
      = [UInt8.ofNat (v / 16777216), UInt8.ofNat (v / 65536 % 256),
          UInt8.ofNat (v / 256 % 256), UInt8.ofNat (v % 256)] := by
  unfold to_big_endian
  rw [byteswap_four v h]
  simp only [memcpy_store]
  have h0 : v % 256 < 256 := Nat.mod_lt _ (by norm_num)
  have h1 : v / 256 % 256 < 256 := Nat.mod_lt _ (by norm_num)
  have h2 : v / 65536 % 256 < 256 := Nat.mod_lt _ (by norm_num)
  have h4 : v / 16777216 < 256 := by omega
  generalize v % 256 = a0 at h0 ⊢
  generalize v / 256 % 256 = a1 at h1 ⊢
  generalize v / 65536 % 256 = a2 at h2 ⊢
  generalize v / 16777216 = a3 at h4 ⊢
  have e0 : (a0 * 16777216 + a1 * 65536 + a2 * 256 + a3) % 256 = a3 := by omega
  have e1 : (a0 * 16777216 + a1 * 65536 + a2 * 256 + a3) / 256 % 256 = a2 := by omega
  have e2 : (a0 * 16777216 + a1 * 65536 + a2 * 256 + a3) / 256 / 256 % 256 = a1 := by omega
  have e3 : (a0 * 16777216 + a1 * 65536 + a2 * 256 + a3) / 256 / 256 / 256 % 256 = a0 := by
    omega
  rw [e0, e1, e2, e3]

/-- The packing loop keeps `bit_count` below 8 and has put one byte for every
eight bits consumed. -/
theorem pack_loop_count :
    ∀ (bits : List Bool) (st : pack_state), st.bit_count < 8 →
      (bits.foldl pack_step st).bit_count < 8 ∧
      (bits.foldl pack_step st).out.length * 8 + (bits.foldl pack_step st).bit_count
        = st.out.length * 8 + st.bit_count + bits.length
  | [], st, h => ⟨h, rfl⟩
  | bit :: rest, st, h => by
    rw [List.foldl_cons]
    have hstep : (pack_step st bit).bit_count < 8 ∧
        (pack_step st bit).out.length * 8 + (pack_step st bit).bit_count
          = st.out.length * 8 + st.bit_count + 1 := by
      unfold pack_step
      by_cases h8 : st.bit_count + 1 = 8
      · simp only [h8, if_true, List.length_append, List.length_singleton]
        omega
      · simp only [h8, if_false]
        omega
    obtain ⟨h1, h2⟩ := pack_loop_count rest (pack_step st bit) hstep.1
    refine ⟨h1, ?_⟩
    rw [h2, hstep.2, List.length_cons]
    omega

/-- Claim C10 (header and size of the written file).  For every filter with
`bits.length == bit_count`, `hash_count < 2 ^ 16` and `bit_count < 2 ^ 32`, and
whatever value the final shift yields, the file written is exactly
`12 + ceil(bit_count / 8)` bytes long and begins with the bytes `"CCBF"`, the
version `00 01`, the hash count as two big-endian bytes and the bit count as
four big-endian bytes. -/
theorem write_binary_file_header (wide_shift : Nat → Nat → Nat) (f : bloom_filter)
    (hlen : f.m_bitset.length = f.m_bits) (hk : f.m_khashes < 2 ^ 16)
    (hb : f.m_bits < 2 ^ 32) :
    (write_binary_file wide_shift f).length = 12 + (f.m_bits + 7) / 8 ∧
    (write_binary_file wide_shift f).take 12
      = [0x43, 0x43, 0x42, 0x46, 0x00, 0x01,
          UInt8.ofNat (f.m_khashes / 256), UInt8.ofNat (f.m_khashes % 256),
          UInt8.ofNat (f.m_bits / 16777216), UInt8.ofNat (f.m_bits / 65536 % 256),
          UInt8.ofNat (f.m_bits / 256 % 256), UInt8.ofNat (f.m_bits % 256)] := by
  obtain ⟨hlt, hcount⟩ := pack_loop_count f.m_bitset ⟨[], 0, 0⟩ (by decide)
  simp only [List.length_nil, Nat.zero_mul, Nat.zero_add] at hcount
  rw [hlen] at hcount
  generalize hst : List.foldl pack_step ⟨[], 0, 0⟩ f.m_bitset = st at hlt hcount
  have hu16 : u16 f.m_khashes = f.m_khashes := Nat.mod_eq_of_lt hk
  have hu32 : u32 f.m_bits = f.m_bits := Nat.mod_eq_of_lt hb
  unfold write_binary_file
  simp only [hu16, hu32]
  rw [memcpy_store_big_endian_two 1 (by norm_num), memcpy_store_big_endian_two _ hk,
    memcpy_store_big_endian_four _ hb]
  rw [hst]
  constructor
  · split
    · simp only [List.length_append, List.length_cons, List.length_nil]
      omega
    · simp only [List.length_append, List.length_cons, List.length_nil]
      omega
  · split <;> rfl

theorem write_binary_file_header_witness :
    ((⟨[true, true, false], 3, 7⟩ : bloom_filter).m_bitset.length = 3 ∧
      (7 : Nat) < 2 ^ 16 ∧ (3 : Nat) < 2 ^ 32) ∧
    (write_binary_file (fun _ _ => 0) ⟨[true, true, false], 3, 7⟩).length = 12 + (3 + 7) / 8 ∧
    (write_binary_file (fun _ _ => 0) ⟨[true, true, false], 3, 7⟩).take 12
      = [0x43, 0x43, 0x42, 0x46, 0x00, 0x01,
          UInt8.ofNat (7 / 256), UInt8.ofNat (7 % 256),
          UInt8.ofNat (3 / 16777216), UInt8.ofNat (3 / 65536 % 256),
          UInt8.ofNat (3 / 256 % 256), UInt8.ofNat (3 % 256)] :=
  ⟨⟨rfl, by norm_num, by norm_num⟩,
    write_binary_file_header (fun _ _ => 0) ⟨[true, true, false], 3, 7⟩ rfl (by norm_num)
      (by norm_num)⟩

/-- The identifier read from a stream is `"CCBF"` exactly when the stream
begins with these four bytes. -/
theorem identifier_eq_iff (stream : List UInt8) :
    (ifstream.read { rest := stream, failed := false } [0, 0, 0, 0] 4).2
        = [0x43, 0x43, 0x42, 0x46]
      ↔ stream.take 4 = [0x43, 0x43, 0x42, 0x46] := by
  match stream with
  | [] => simp [ifstream.read]
  | [b0] => simp [ifstream.read]
  | [b0, b1] => simp [ifstream.read]
  | [b0, b1, b2] => simp [ifstream.read]
  | b0 :: b1 :: b2 :: b3 :: rest => simp [ifstream.read]

/-- Claim C7 as amended.  In a build with assertions enabled, for every
byte stream whose first four bytes are not `"CCBF"`, `read_binary_file` stops
in the failed assertion: it returns neither an error value nor a filter. -/
theorem wrong_magic_fails_assertion (stream : List UInt8)
    (h : stream.take 4 ≠ [0x43, 0x43, 0x42, 0x46]) :
    read_binary_file false (some stream) = .assertion_failed := by
  have hid := mt (identifier_eq_iff stream).mp h
  unfold read_binary_file
  simp only [Bool.not_false, Bool.true_and, decide_eq_true_eq]
  rw [if_pos hid]

theorem wrong_magic_fails_assertion_witness :
    ([0x58, 0x43, 0x42, 0x46, 0, 1, 0, 1, 0, 0, 0, 0] : List UInt8).take 4
        ≠ [0x43, 0x43, 0x42, 0x46] ∧
      read_binary_file false (some [0x58, 0x43, 0x42, 0x46, 0, 1, 0, 1, 0, 0, 0, 0])
        = .assertion_failed :=
  ⟨by decide,
    wrong_magic_fails_assertion [0x58, 0x43, 0x42, 0x46, 0, 1, 0, 1, 0, 0, 0, 0] (by decide)⟩

/-- Claim C7 fails as stated.  On the four bytes `"XCBF"` a build with
assertions enabled ends in the failed assertion, not in an error value returned
to the caller, and a build without them returns a filter. -/
theorem wrong_magic_no_error_value :
    read_binary_file false (some [0x58, 0x43, 0x42, 0x46]) = .assertion_failed ∧
    read_binary_file false (some [0x58, 0x43, 0x42, 0x46]) ≠ .nullopt ∧
    read_binary_file true (some [0x58, 0x43, 0x42, 0x46]) = .returned ⟨[], 0, 0⟩ := by
  decide

theorem unpack_fold_length (bits byte : Nat) :
    ∀ (idxs : List Nat) (bitset : List Bool), bitset.length ≤ bits →
      (idxs.foldl
        (fun bitset bit_idx =>
          if bitset.length < bits then bitset ++ [decide ((byte >>> bit_idx) &&& 1 ≠ 0)]
          else bitset)
        bitset).length = min (bitset.length + idxs.length) bits
  | [], bitset, h => by
    simp only [List.foldl_nil, List.length_nil, Nat.add_zero]
    omega
  | i :: rest, bitset, h => by
    rw [List.foldl_cons]
    by_cases hlt : bitset.length < bits
    · have hone : (bitset ++ [decide ((byte >>> i) &&& 1 ≠ 0)]).length = bitset.length + 1 := by
        rw [List.length_append, List.length_singleton]
      rw [if_pos hlt, unpack_fold_length bits byte rest _ (by rw [hone]; omega), hone,
        List.length_cons]
      omega
    · rw [if_neg hlt, unpack_fold_length bits byte rest _ h, List.length_cons]
      omega

theorem unpack_byte_length (bits byte : Nat) (bitset : List Bool) (h : bitset.length ≤ bits) :
    (unpack_byte bits byte bitset).length = min (bitset.length + 8) bits := by
  unfold unpack_byte
  rw [unpack_fold_length bits byte (List.range 8) bitset h, List.length_range]

theorem read_loop_length (bits : Nat) :
    ∀ (idxs : List Nat) (st : ifstream × List UInt8 × List Bool), st.2.2.length ≤ bits →
      (idxs.foldl (read_window bits) st).2.2.length = min (st.2.2.length + 8 * idxs.length) bits
  | [], st, h => by
    simp only [List.foldl_nil, List.length_nil]
    omega
  | i :: rest, st, h => by
    have hstep : (read_window bits st i).2.2.length = min (st.2.2.length + 8) bits := by
      unfold read_window
      exact unpack_byte_length bits _ st.2.2 h
    rw [List.foldl_cons, read_loop_length bits rest _ (by rw [hstep]; omega), hstep,
      List.length_cons]
    omega

/-- Claim C8 as amended.  For every byte stream that starts with
`"CCBF"` and is truncated, `read_binary_file` does not fail: it returns a
filter, and the bit array of that filter has as many entries as its
`bit_count`. -/
theorem truncated_stream_returns_filter (ndebug : Bool) (stream : List UInt8)
    (hmagic : stream.take 4 = [0x43, 0x43, 0x42, 0x46]) (_htrunc : truncated stream) :
    ∃ f, read_binary_file ndebug (some stream) = .returned f ∧
      f.m_bitset.length = f.m_bits := by
  have hid := (identifier_eq_iff stream).mpr hmagic
  unfold read_binary_file
  simp only [hid, ne_eq, not_true_eq_false, decide_False, Bool.and_false, Bool.false_eq_true,
    if_false]
  refine ⟨_, rfl, ?_⟩
  simp only
  rw [read_loop_length _ _ _ (Nat.zero_le _), List.length_range]
  simp only [List.length_nil]
  split <;> omega

theorem truncated_stream_returns_filter_witness :
    (([0x43, 0x43, 0x42, 0x46, 0, 1, 0, 7, 0, 0, 0, 16, 0xff] : List UInt8).take 4
        = [0x43, 0x43, 0x42, 0x46] ∧
      truncated [0x43, 0x43, 0x42, 0x46, 0, 1, 0, 7, 0, 0, 0, 16, 0xff]) ∧
    ∃ f, read_binary_file false (some [0x43, 0x43, 0x42, 0x46, 0, 1, 0, 7, 0, 0, 0, 16, 0xff])
        = .returned f ∧ f.m_bitset.length = f.m_bits :=
  ⟨⟨by decide, Or.inr (by decide)⟩,
    truncated_stream_returns_filter false
      [0x43, 0x43, 0x42, 0x46, 0, 1, 0, 7, 0, 0, 0, 16, 0xff] (by decide) (Or.inr (by decide))⟩

/-- Claim C8 fails as stated.  The stream `"CCBF"`, cut off before the header
fields, is truncated, and `read_binary_file` returns the filter with no bits
and no hash functions; a stream that declares 16 bits and holds one of the two
bytes is truncated, and the second byte is read as a repetition of the
first. -/
theorem truncated_stream_not_rejected :
    truncated [0x43, 0x43, 0x42, 0x46] ∧
    read_binary_file false (some [0x43, 0x43, 0x42, 0x46]) = .returned ⟨[], 0, 0⟩ ∧
    truncated [0x43, 0x43, 0x42, 0x46, 0, 1, 0, 7, 0, 0, 0, 16, 0x01] ∧
    read_binary_file false (some [0x43, 0x43, 0x42, 0x46, 0, 1, 0, 7, 0, 0, 0, 16, 0x01])
      = .returned ⟨[true, false, false, false, false, false, false, false,
          true, false, false, false, false, false, false, false], 16, 7⟩ :=
  ⟨Or.inl (by decide), by decide, Or.inr (by decide), by decide⟩

/-! ## The filter: idempotence, totality, degenerate and extreme states -/

theorem set_true_of_set (l : List Bool) (j : Nat) (h : l[j]? = some true) :
    l.set j true = l := by
  apply List.ext_getElem?
  intro i
  rw [List.getElem?_set]
  by_cases hji : j = i
  · subst hji
    obtain ⟨hlt, _⟩ := List.getElem?_eq_some.mp h
    rw [if_pos rfl, if_pos hlt, h]
  · rw [if_neg hji]

/-- A round of `insert` whose bit is already set leaves the filter as it is. -/
theorem insert_step_of_set (hash1 hash2 : Nat) (g : bloom_filter) (i : Nat)
    (hbits : 1 ≤ g.m_bits)
    (h : g.m_bitset[usize (hash1 + usize (i * hash2)) % g.m_bits]? = some true) :
    insert_step hash1 hash2 g i = some g := by
  obtain ⟨hlt, _⟩ := List.getElem?_eq_some.mp h
  unfold insert_step
  rw [bit_idx_of_pos _ _ _ _ hbits]
  simp only [hlt, if_true]
  rw [set_true_of_set _ _ h]

theorem foldlM_fixed {σ : Type} (step : σ → Nat → Option σ) (g : σ) :
    ∀ l : List Nat, (∀ i ∈ l, step g i = some g) → l.foldlM step g = some g
  | [], _ => rfl
  | i :: rest, h => by
    rw [List.foldlM_cons, h i (List.mem_cons_self i rest)]
    exact foldlM_fixed step g rest (fun j hj => h j (List.mem_cons_of_mem i hj))

/-- Claim C12 (`insert` is idempotent).  For every filter with
`bits.length == bit_count ≥ 1` and every item `x`, `insert(x)` completes with a
state `g`, and a second `insert(x)` on `g` completes with the same state `g`
(same `bit_count`, `hash_count` and bits). -/
theorem insert_idempotent (f : bloom_filter) (x : List UInt8)
    (hlen : f.m_bitset.length = f.m_bits) (hbits : 1 ≤ f.m_bits) :
    ∃ g, f.insert x = some g ∧ g.insert x = some g := by
  obtain ⟨g, hg, hb, hk, _, hset⟩ := insert_spec f x hlen hbits
  refine ⟨g, hg, ?_⟩
  unfold bloom_filter.insert
  rw [hash_pair_eq]
  apply foldlM_fixed
  intro i hi
  apply insert_step_of_set _ _ g i (by rw [hb]; exact hbits)
  rw [hb]
  exact (hset _).mpr (Or.inr ⟨i, by rw [← hk]; exact List.mem_range.mp hi, rfl⟩)

theorem insert_idempotent_witness :
    ((⟨[false, true, false], 3, 2⟩ : bloom_filter).m_bitset.length = 3 ∧ 1 ≤ 3) ∧
    ∃ g, (⟨[false, true, false], 3, 2⟩ : bloom_filter).insert [0x61] = some g ∧
      g.insert [0x61] = some g :=
  ⟨⟨rfl, by decide⟩, insert_idempotent ⟨[false, true, false], 3, 2⟩ [0x61] rfl (by decide)⟩

theorem all_of_some (test : Nat → Option Bool) :
    ∀ l : List Nat, (∀ i ∈ l, ∃ b, test i = some b) → ∃ b, all_of test l = some b
  | [], _ => ⟨true, rfl⟩
  | i :: rest, h => by
    obtain ⟨b, hb⟩ := h i (List.mem_cons_self i rest)
    unfold all_of
    rw [hb]
    cases b with
    | false => exact ⟨false, rfl⟩
    | true => exact all_of_some test rest (fun j hj => h j (List.mem_cons_of_mem i hj))

/-- Claim C13 (`insert` and `possibly_contains` are total on a valid state).
For every filter with `bit_count ≥ 1`, `hash_count ≥ 1` and
`bits.length == bit_count` and every item: the modulus is not zero, every index
the two operations compute is below `bits.length`, and both operations
complete. -/
theorem operations_total (f : bloom_filter) (x : List UInt8)
    (hbits : 1 ≤ f.m_bits) (_hk : 1 ≤ f.m_khashes) (hlen : f.m_bitset.length = f.m_bits) :
    f.m_bits ≠ 0 ∧
    (∃ hash1 hash2, hash_pair x = some (hash1, hash2) ∧
      ∀ i, i < f.m_khashes →
        ∃ j, bit_idx f.m_bits hash1 hash2 i = some j ∧ j < f.m_bitset.length) ∧
    (∃ g, f.insert x = some g) ∧
    (∃ b, f.possibly_contains x = some b) := by
  have hidx : ∀ hash1 hash2 i : Nat,
      ∃ j, bit_idx f.m_bits hash1 hash2 i = some j ∧ j < f.m_bitset.length := by
    intro hash1 hash2 i
    refine ⟨_, bit_idx_of_pos _ _ _ _ hbits, ?_⟩
    rw [hlen]
    exact Nat.mod_lt _ (by omega)
  refine ⟨by omega, ⟨_, _, hash_pair_eq x, fun i _ => hidx _ _ i⟩, ?_, ?_⟩
  · obtain ⟨g, hg, _⟩ := insert_spec f x hlen hbits
    exact ⟨g, hg⟩
  · unfold bloom_filter.possibly_contains
    rw [hash_pair_eq]
    apply all_of_some
    intro i _
    obtain ⟨j, hj, hlt⟩ := hidx (reference_murmur3_x86_32 x hash_seed1)
      (reference_murmur3_x86_32 x hash_seed2) i
    unfold contains_test
    rw [hj]
    exact ⟨f.m_bitset[j], List.getElem?_eq_getElem hlt⟩

theorem operations_total_witness :
    (⟨[false, true, false], 3, 2⟩ : bloom_filter).m_bits ≠ 0 ∧
    (∃ hash1 hash2, hash_pair [0x61] = some (hash1, hash2) ∧
      ∀ i, i < (⟨[false, true, false], 3, 2⟩ : bloom_filter).m_khashes →
        ∃ j, bit_idx (⟨[false, true, false], 3, 2⟩ : bloom_filter).m_bits hash1 hash2 i = some j ∧
          j < (⟨[false, true, false], 3, 2⟩ : bloom_filter).m_bitset.length) ∧
    (∃ g, (⟨[false, true, false], 3, 2⟩ : bloom_filter).insert [0x61] = some g) ∧
    (∃ b, (⟨[false, true, false], 3, 2⟩ : bloom_filter).possibly_contains [0x61] = some b) :=
  operations_total ⟨[false, true, false], 3, 2⟩ [0x61] (by decide) (by decide) rfl

/-- Claim C18 (an empty filter reports nothing).  For every filter with
`bit_count ≥ 1`, `hash_count ≥ 1` and all of its `bit_count` bits clear, and
every item `x`, `possibly_contains x` returns `false`. -/
theorem empty_filter_reports_nothing (f : bloom_filter) (x : List UInt8)
    (hbits : 1 ≤ f.m_bits) (hk : 1 ≤ f.m_khashes)
    (hclear : f.m_bitset = List.replicate f.m_bits false) :
    f.possibly_contains x = some false := by
  obtain ⟨k, hk⟩ : ∃ k, f.m_khashes = k + 1 := ⟨f.m_khashes - 1, by omega⟩
  have hlt : usize (reference_murmur3_x86_32 x hash_seed1
      + usize (0 * reference_murmur3_x86_32 x hash_seed2)) % f.m_bits < f.m_bits :=
    Nat.mod_lt _ (by omega)
  unfold bloom_filter.possibly_contains
  rw [hash_pair_eq, hk, List.range_succ_eq_map]
  unfold all_of contains_test
  rw [bit_idx_of_pos _ _ _ _ hbits]
  simp only []
  rw [hclear, List.getElem?_replicate_of_lt hlt]

theorem empty_filter_reports_nothing_witness :
    (1 ≤ 958 ∧ 1 ≤ 7 ∧
      (⟨List.replicate 958 false, 958, 7⟩ : bloom_filter).m_bitset
        = List.replicate 958 false) ∧
    (⟨List.replicate 958 false, 958, 7⟩ : bloom_filter).possibly_contains
      [0x73, 0x6f, 0x6d, 0x65, 0x5f, 0x76, 0x61, 0x6c, 0x75, 0x65] = some false :=
  ⟨⟨by decide, by decide, rfl⟩,
    empty_filter_reports_nothing ⟨List.replicate 958 false, 958, 7⟩
      [0x73, 0x6f, 0x6d, 0x65, 0x5f, 0x76, 0x61, 0x6c, 0x75, 0x65] (by decide) (by decide) rfl⟩

/-- Claim C19 (a saturated filter reports everything).  For every filter with
`bit_count ≥ 1`, `bits.length == bit_count` and every bit set, and every item
`x`, `possibly_contains x` completes and returns `true`. -/
theorem saturated_filter_reports_everything (f : bloom_filter) (x : List UInt8)
    (hbits : 1 ≤ f.m_bits) (hlen : f.m_bitset.length = f.m_bits)
    (hset : ∀ b ∈ f.m_bitset, b = true) :
    f.possibly_contains x = some true := by
  apply possibly_contains_of_set f x hbits
  intro i _
  have hlt : usize (reference_murmur3_x86_32 x hash_seed1
      + usize (i * reference_murmur3_x86_32 x hash_seed2)) % f.m_bits < f.m_bitset.length := by
    rw [hlen]
    exact Nat.mod_lt _ (by omega)
  rw [List.getElem?_eq_getElem hlt, hset _ (List.getElem_mem hlt)]

theorem saturated_filter_reports_everything_witness :
    (1 ≤ 2 ∧ (⟨[true, true], 2, 1⟩ : bloom_filter).m_bitset.length = 2 ∧
      ∀ b ∈ (⟨[true, true], 2, 1⟩ : bloom_filter).m_bitset, b = true) ∧
    (⟨[true, true], 2, 1⟩ : bloom_filter).possibly_contains
      [0x6f, 0x72, 0x61, 0x6e, 0x67, 0x65] = some true :=
  ⟨⟨by decide, rfl, by decide⟩,
    saturated_filter_reports_everything ⟨[true, true], 2, 1⟩
      [0x6f, 0x72, 0x61, 0x6e, 0x67, 0x65] (by decide) rfl (by decide)⟩

/-- The test `HighFailureRate`: in the filter of 2 bits and one hash function,
inserting `"apple"`, `"elephant"` and `"parrot"` sets both bits, and the query
for `"orange"` then returns `true`. -/
theorem high_failure_rate_saturates :
    insert_into_filter ⟨[false, false], 2, 1⟩
        [[0x61, 0x70, 0x70, 0x6c, 0x65],
          [0x65, 0x6c, 0x65, 0x70, 0x68, 0x61, 0x6e, 0x74],
          [0x70, 0x61, 0x72, 0x72, 0x6f, 0x74]]
      = some ⟨[true, true], 2, 1⟩ ∧
    (⟨[true, true], 2, 1⟩ : bloom_filter).possibly_contains
      [0x6f, 0x72, 0x61, 0x6e, 0x67, 0x65] = some true := by
  decide

/-! ## The length invariant -/

theorem foldlM_invariant {σ : Type} (step : σ → Nat → Option σ) (P : σ → Prop)
    (hstep : ∀ s i t, P s → step s i = some t → P t) :
    ∀ (l : List Nat) (s t : σ), P s → l.foldlM step s = some t → P t
  | [], s, t, hs, h => by
    have e : s = t := Option.some.inj h
    rw [← e]
    exact hs
  | i :: rest, s, t, hs, h => by
    rw [List.foldlM_cons] at h
    cases hi : step s i with
    | none => rw [hi] at h; cases h
    | some m =>
      rw [hi] at h
      exact foldlM_invariant step P hstep rest m t (hstep s i m hs hi) h

/-- Whenever `insert` completes, it has left `bit_count` and the length of the
bit array as they were. -/
theorem insert_keeps_sizes (f g : bloom_filter) (data : List UInt8) (h : f.insert data = some g) :
    g.m_bits = f.m_bits ∧ g.m_bitset.length = f.m_bitset.length := by
  unfold bloom_filter.insert at h
  rw [hash_pair_eq] at h
  refine foldlM_invariant _
    (fun s => s.m_bits = f.m_bits ∧ s.m_bitset.length = f.m_bitset.length) ?_ _ f g
    ⟨rfl, rfl⟩ h
  intro s i t hs hstep
  unfold insert_step at hstep
  cases hj : bit_idx s.m_bits (reference_murmur3_x86_32 data hash_seed1)
      (reference_murmur3_x86_32 data hash_seed2) i with
  | none => rw [hj] at hstep; cases hstep
  | some j =>
    rw [hj] at hstep
    by_cases hlt : j < s.m_bitset.length
    · simp only [hlt, if_true] at hstep
      have e := Option.some.inj hstep
      rw [← e]
      exact ⟨hs.1, by simp only [List.length_set]; exact hs.2⟩
    · simp only [hlt, if_false] at hstep
      cases hstep

/-- Calls that keep to vectors of `bit_count` entries preserve the length
invariant in every state they reach. -/
theorem run_keeps_length :
    ∀ (calls : List mutation) (f g : bloom_filter),
      f.m_bitset.length = f.m_bits →
      (∀ bitset, mutation.set_bitset bitset ∈ calls → bitset.length = f.m_bits) →
      f.run calls = some g → g.m_bitset.length = g.m_bits ∧ g.m_bits = f.m_bits
  | [], f, g, hlen, _, h => by
    have e : f = g := Option.some.inj h
    rw [← e]
    exact ⟨hlen, rfl⟩
  | call :: rest, f, g, hlen, hcalls, h => by
    unfold bloom_filter.run at h
    cases hm : f.apply call with
    | none => rw [hm] at h; cases h
    | some m =>
      rw [hm] at h
      have hm2 : m.m_bitset.length = m.m_bits ∧ m.m_bits = f.m_bits := by
        cases call with
        | insert data =>
          obtain ⟨hb, hl⟩ := insert_keeps_sizes f m data hm
          exact ⟨by rw [hl, hb, hlen], hb⟩
        | set_bitset bitset =>
          have e : f.set_bitset bitset = m := Option.some.inj hm
          rw [← e]
          exact ⟨hcalls bitset (List.mem_cons_self _ _), rfl⟩
      obtain ⟨h1, h2⟩ := run_keeps_length rest m g hm2.1
        (fun bitset hb => by
          rw [hm2.2]
          exact hcalls bitset (List.mem_cons_of_mem _ hb)) h
      exact ⟨h1, by rw [h2, hm2.2]⟩

/-- On a filter with `bit_count ≥ 1` such calls all complete. -/
theorem run_completes :
    ∀ (calls : List mutation) (f : bloom_filter),
      f.m_bitset.length = f.m_bits → 1 ≤ f.m_bits →
      (∀ bitset, mutation.set_bitset bitset ∈ calls → bitset.length = f.m_bits) →
      ∃ g, f.run calls = some g
  | [], f, _, _, _ => ⟨f, rfl⟩
  | call :: rest, f, hlen, hbits, hcalls => by
    have hm : ∃ m, f.apply call = some m ∧ m.m_bitset.length = m.m_bits ∧ m.m_bits = f.m_bits := by
      cases call with
      | insert data =>
        obtain ⟨m, hm, hb, _, hl, _⟩ := insert_spec f data hlen hbits
        exact ⟨m, hm, by rw [hl, hb, hlen], hb⟩
      | set_bitset bitset =>
        exact ⟨f.set_bitset bitset, rfl, hcalls bitset (List.mem_cons_self _ _), rfl⟩
    obtain ⟨m, hm, hl, hb⟩ := hm
    obtain ⟨g, hg⟩ := run_completes rest m hl (by rw [hb]; exact hbits)
      (fun bitset hmem => by
        rw [hb]
        exact hcalls bitset (List.mem_cons_of_mem _ hmem))
    refine ⟨g, ?_⟩
    unfold bloom_filter.run
    rw [hm]
    exact hg

/-- The constructor builds a bit array of `bit_count` entries. -/
theorem constructor_length (sizing : Nat → double → Nat × Nat) (expected_items : Nat)
    (rate : double) (f : bloom_filter)
    (h : bloom_filter.bloom_filter sizing expected_items rate = .ok f) :
    f.m_bitset.length = f.m_bits := by
  unfold bloom_filter.bloom_filter at h
  rw [if_neg (Nat.not_lt_zero _)] at h
  split at h
  · cases h
  · cases h
    simp only [List.length_replicate]

/-- Claim C17 as amended.  Starting from any filter built by the capacity
constructor, after every finite sequence of `insert` calls (any item) and of
`set_bitset` calls whose vector has `bit_count` entries, the length of the bit
array equals `bit_count`, which is the one of the start; when `bit_count ≥ 1`
every such sequence completes. -/
theorem length_invariant (sizing : Nat → double → Nat × Nat) (expected_items : Nat)
    (rate : double) (f : bloom_filter)
    (hbuilt : bloom_filter.bloom_filter sizing expected_items rate = .ok f)
    (calls : List mutation)
    (hcalls : ∀ bitset, mutation.set_bitset bitset ∈ calls → bitset.length = f.m_bits) :
    (∀ g, f.run calls = some g → g.m_bitset.length = g.m_bits ∧ g.m_bits = f.m_bits) ∧
    (1 ≤ f.m_bits → ∃ g, f.run calls = some g) :=
  ⟨fun g hg => run_keeps_length calls f g (constructor_length sizing expected_items rate f hbuilt)
      hcalls hg,
    fun hbits => run_completes calls f (constructor_length sizing expected_items rate f hbuilt)
      hbits hcalls⟩

/-- The constructor at a rate inside `[0, 1]`, on a sizing that yields the pair
`(m, k)`. -/
theorem constructor_of_sizing (m k expected_items : Nat) (rate : ℚ) (h0 : 0 ≤ rate)
    (h1 : rate ≤ 1) :
    bloom_filter.bloom_filter (fun _ _ => (m, k)) expected_items (.finite rate)
      = .ok ⟨List.replicate m false, m, k⟩ := by
  have e0 : (double.finite rate).lt (.finite 0.0) = false := by
    unfold double.lt
    exact decide_eq_false (by norm_num; exact h0)
  have e1 : (double.finite 1.0).lt (double.finite rate) = false := by
    unfold double.lt
    exact decide_eq_false (by norm_num; exact h1)
  unfold bloom_filter.bloom_filter
  rw [if_neg (Nat.not_lt_zero _), e0, e1]
  rfl

theorem length_invariant_witness :
    (bloom_filter.bloom_filter (fun _ _ => (3, 2)) 3 (.finite (1 / 2))
        = .ok ⟨List.replicate 3 false, 3, 2⟩ ∧
      ∀ bitset, mutation.set_bitset bitset
          ∈ [mutation.insert [0x61], mutation.set_bitset [true, false, true]] →
        bitset.length = (⟨List.replicate 3 false, 3, 2⟩ : bloom_filter).m_bits) ∧
    (∀ g, (⟨List.replicate 3 false, 3, 2⟩ : bloom_filter).run
        [mutation.insert [0x61], mutation.set_bitset [true, false, true]] = some g →
      g.m_bitset.length = g.m_bits ∧
        g.m_bits = (⟨List.replicate 3 false, 3, 2⟩ : bloom_filter).m_bits) ∧
    (1 ≤ (⟨List.replicate 3 false, 3, 2⟩ : bloom_filter).m_bits →
      ∃ g, (⟨List.replicate 3 false, 3, 2⟩ : bloom_filter).run
        [mutation.insert [0x61], mutation.set_bitset [true, false, true]] = some g) :=
  have hcalls : ∀ bitset, mutation.set_bitset bitset
      ∈ [mutation.insert [0x61], mutation.set_bitset [true, false, true]] →
        bitset.length = (⟨List.replicate 3 false, 3, 2⟩ : bloom_filter).m_bits := by
    intro bitset hmem
    simp only [List.mem_cons, List.mem_singleton, List.not_mem_nil, or_false,
      mutation.set_bitset.injEq] at hmem
    rcases hmem with hmem | hmem
    · cases hmem
    · rw [hmem]
      rfl
  ⟨⟨constructor_of_sizing 3 2 3 (1 / 2) (by norm_num) (by norm_num), hcalls⟩,
    length_invariant (fun _ _ => (3, 2)) 3 (.finite (1 / 2)) ⟨List.replicate 3 false, 3, 2⟩
      (constructor_of_sizing 3 2 3 (1 / 2) (by norm_num) (by norm_num))
      [mutation.insert [0x61], mutation.set_bitset [true, false, true]] hcalls⟩

/-- Claim C17 fails as stated.  The filter of 958 bits is what the constructor
builds when the sizing yields 958 and 7; after `set_bitset` with the empty
vector its bit array has length 0 while `bit_count` is still 958. -/
theorem set_bitset_breaks_length_invariant :
    bloom_filter.bloom_filter (fun _ _ => (958, 7)) 100 (.finite (1 / 100))
      = .ok ⟨List.replicate 958 false, 958, 7⟩ ∧
    (⟨List.replicate 958 false, 958, 7⟩ : bloom_filter).run [mutation.set_bitset []]
      = some ⟨[], 958, 7⟩ ∧
    (⟨[], 958, 7⟩ : bloom_filter).m_bitset.length ≠ (⟨[], 958, 7⟩ : bloom_filter).m_bits :=
  ⟨constructor_of_sizing 958 7 100 (1 / 100) (by norm_num) (by norm_num), rfl, by decide⟩

/-! ## The decoder -/

/-- Claim C11, the code on a stream of one data byte.  The stream declares one
hash function and 8 bits and holds the byte `0x80`, whose bit at position 7 is
set and whose bit at position 0 is clear; `read_binary_file` returns hash count
1, bit count 8 and 8 bits, but bit 0 of the array is clear and bit 7 is set:
bit `i` of the array is the bit at position `i mod 8` of its byte, not at
position `7 - (i mod 8)`. -/
theorem decoder_reads_low_bit_first :
    read_binary_file false
        (some [0x43, 0x43, 0x42, 0x46, 0x00, 0x01, 0x00, 0x01, 0x00, 0x00, 0x00, 0x08, 0x80])
      = .returned ⟨[false, false, false, false, false, false, false, true], 8, 1⟩ ∧
    ((0x80 : Nat) >>> (7 - 0 % 8)) &&& 1 = 1 ∧
    ((0x80 : Nat) >>> (0 % 8)) &&& 1 = 0 := by
  decide

/-! ## The sizing arithmetic -/

/-- Where the sizing lines are defined, the constructor over the model of
`double` is the constructor on the pair they yield. -/
theorem bloom_filter_fp_eq (u : fpu) (expected_items : Nat) (rate : double) (mk : Nat × Nat)
    (h : sizing_lines u expected_items rate = some mk) :
    bloom_filter.bloom_filter_fp u expected_items rate
      = some (bloom_filter.bloom_filter (fun _ _ => mk) expected_items rate) := by
  unfold bloom_filter.bloom_filter_fp bloom_filter.bloom_filter
  rw [h]
  split
  · rfl
  · split <;> rfl

theorem mul_zero_left (u : fpu) (y : double) :
    u.mul (.finite 0) y = .finite 0 ∨ u.mul (.finite 0) y = .nan := by
  cases y <;> simp [fpu.mul]

theorem div_of_zero_or_nan (u : fpu) (x d : double) (h : x = .finite 0 ∨ x = .nan) :
    u.div x d = .finite 0 ∨ u.div x d = .nan := by
  rcases h with h | h
  · subst h
    cases d with
    | nan => exact Or.inr rfl
    | neg_inf => exact Or.inl rfl
    | pos_inf => exact Or.inl rfl
    | finite b =>
      by_cases hb : b = 0
      · exact Or.inr (by simp [fpu.div, hb])
      · exact Or.inl (by simp [fpu.div, hb])
  · subst h
    exact Or.inr (by cases d <;> rfl)

theorem div_by_zero_of_zero_or_nan (u : fpu) (x : double) (h : x = .finite 0 ∨ x = .nan) :
    u.div x (.finite 0) = .nan := by
  rcases h with h | h <;> subst h <;> simp [fpu.div]

/-- For `expected_items = 0` the quotient `num_bits / num_items` is `0.0 / 0.0`
or has a NaN operand, so `num_hashes` is a NaN. -/
theorem num_hashes_zero_items (u : fpu) (rate : double) : num_hashes u 0 rate = .nan := by
  have hzero : u.of_size_t 0 = .finite 0 := by
    unfold fpu.of_size_t
    rw [if_pos (by norm_num)]
    simp
  have hbits : num_bits u 0 rate = .finite 0 ∨ num_bits u 0 rate = .nan := by
    unfold num_bits
    simp only [hzero]
    apply div_of_zero_or_nan
    rcases mul_zero_left u (u.std_log rate) with h | h <;> rw [h] <;> simp [double.neg]
  unfold num_hashes
  simp only [hzero]
  rw [div_by_zero_of_zero_or_nan u _ hbits]
  simp [fpu.mul]

theorem sizing_lines_zero_items (u : fpu) (rate : double) : sizing_lines u 0 rate = none := by
  unfold sizing_lines
  rw [num_hashes_zero_items]
  cases (num_bits u 0 rate).to_size_t <;> simp [double.round, double.to_size_t]

theorem div_pos_inf_to_size_t (u : fpu) (d : double) :
    (u.div .pos_inf d).to_size_t = none := by
  cases d with
  | nan => rfl
  | neg_inf => rfl
  | pos_inf => rfl
  | finite b =>
    show (if 0 ≤ b then double.pos_inf else double.neg_inf).to_size_t = none
    split <;> rfl

/-- For a rate of `0.0` and one expected item `num_bits` is an infinity or a
NaN. -/
theorem sizing_lines_zero_rate (u : fpu) : sizing_lines u 1 (.finite 0) = none := by
  have hone : u.of_size_t 1 = .finite 1 := by
    unfold fpu.of_size_t
    rw [if_pos (by norm_num)]
    simp
  have hlog : u.std_log (.finite 0) = .neg_inf := by simp [fpu.std_log]
  have hmul : u.mul (.finite 1) .neg_inf = .neg_inf := by simp [fpu.mul]
  have hbits : (num_bits u 1 (.finite 0)).to_size_t = none := by
    unfold num_bits
    simp only [hone, hlog, hmul]
    exact div_pos_inf_to_size_t u _
  unfold sizing_lines
  rw [hbits]

/-- The validation lets every finite rate of `[0, 1]` pass. -/
theorem validation_passes (q : ℚ) (h0 : 0 ≤ q) (h1 : q ≤ 1) :
    ((double.finite q).lt (.finite 0.0) || (double.finite 1.0).lt (.finite q)) = false := by
  have e0 : (double.finite q).lt (.finite 0.0) = false := by
    unfold double.lt
    exact decide_eq_false (by norm_num; exact h0)
  have e1 : (double.finite 1.0).lt (double.finite q) = false := by
    unfold double.lt
    exact decide_eq_false (by norm_num; exact h1)
  rw [e0, e1]
  rfl

/-- Claim C15, the code at `expected_items = 0`.  For every floating-point
unit: with `expected_items = 0` the constructor never returns a filter, it
either throws the rate error or converts a NaN to `size_t`, which is undefined;
at the rate 0.01 it is the undefined conversion.  With `expected_items = 1` and
the rate 0.0 it converts an infinity or a NaN. -/
theorem boundary_inputs_undefined (u : fpu) :
    (∀ rate : double,
      bloom_filter.bloom_filter_fp u 0 rate = none ∨
      bloom_filter.bloom_filter_fp u 0 rate = some (.error (.false_positive_rate rate))) ∧
    bloom_filter.bloom_filter_fp u 0 (.finite (1 / 100)) = none ∧
    bloom_filter.bloom_filter_fp u 1 (.finite 0) = none := by
  refine ⟨fun rate => ?_, ?_, ?_⟩
  · unfold bloom_filter.bloom_filter_fp
    rw [if_neg (Nat.not_lt_zero _), sizing_lines_zero_items]
    split
    · exact Or.inr rfl
    · exact Or.inl rfl
  · unfold bloom_filter.bloom_filter_fp
    rw [if_neg (Nat.not_lt_zero _), sizing_lines_zero_items,
      validation_passes (1 / 100) (by norm_num) (by norm_num)]
    rfl
  · unfold bloom_filter.bloom_filter_fp
    rw [if_neg (Nat.not_lt_zero _), sizing_lines_zero_rate,
      validation_passes 0 (by norm_num) (by norm_num)]
    rfl

/-! ## The sizing arithmetic on an accurate unit -/

theorem within_mono {x : double} {lo hi lo2 hi2 : ℚ} (h : x.within lo hi) (h1 : lo2 ≤ lo)
    (h2 : hi ≤ hi2) : x.within lo2 hi2 := by
  obtain ⟨r, hx, ha, hb⟩ := h
  exact ⟨r, hx, le_trans h1 ha, le_trans hb h2⟩

theorem rnd_pos_within (u : fpu) (hacc : u.accurate) (q lo hi : ℚ) (hlo : 1 / 1000 ≤ lo)
    (hhi : hi ≤ 10 ^ 6) (h1 : lo ≤ q) (h2 : q ≤ hi) :
    (u.rnd q).within (lo * (1 - 1 / 10 ^ 6)) (hi * (1 + 1 / 10 ^ 6)) := by
  have hq : 0 < q := by linarith
  have habs : |q| = q := abs_of_pos hq
  have h := hacc.rnd_near q (by rw [habs]; linarith) (by rw [habs]; linarith)
  rw [habs] at h
  apply within_mono h
  · nlinarith
  · nlinarith

theorem mul_within (u : fpu) (hacc : u.accurate) (x y : double) (a b c d : ℚ)
    (hx : x.within a b) (hy : y.within c d) (ha : 0 < a) (hc : 0 < c)
    (hlo : 1 / 1000 ≤ a * c) (hhi : b * d ≤ 10 ^ 6) :
    (u.mul x y).within (a * c * (1 - 1 / 10 ^ 6)) (b * d * (1 + 1 / 10 ^ 6)) := by
  obtain ⟨r, hr, hr1, hr2⟩ := hx
  obtain ⟨t, ht, ht1, ht2⟩ := hy
  have hrpos : 0 < r := by linarith
  have htpos : 0 < t := by linarith
  have h1 : a * c ≤ r * t := mul_le_mul hr1 ht1 (le_of_lt hc) (le_of_lt hrpos)
  have h2 : r * t ≤ b * d := mul_le_mul hr2 ht2 (le_of_lt htpos) (by linarith)
  have hne : r * t ≠ 0 := ne_of_gt (mul_pos hrpos htpos)
  have e : u.mul x y = u.rnd (r * t) := by
    rw [hr, ht]
    simp only [fpu.mul, hne, if_false]
  rw [e]
  exact rnd_pos_within u hacc (r * t) (a * c) (b * d) hlo hhi h1 h2

theorem div_within (u : fpu) (hacc : u.accurate) (x y : double) (a b c d : ℚ)
    (hx : x.within a b) (hy : y.within c d) (ha : 0 < a) (hc : 0 < c)
    (hlo : 1 / 1000 ≤ a / d) (hhi : b / c ≤ 10 ^ 6) :
    (u.div x y).within (a / d * (1 - 1 / 10 ^ 6)) (b / c * (1 + 1 / 10 ^ 6)) := by
  obtain ⟨r, hr, hr1, hr2⟩ := hx
  obtain ⟨t, ht, ht1, ht2⟩ := hy
  have hrpos : 0 < r := by linarith
  have htpos : 0 < t := by linarith
  have h1 : a / d ≤ r / t := div_le_div₀ (le_of_lt hrpos) hr1 htpos ht2
  have h2 : r / t ≤ b / c := div_le_div₀ (by linarith) hr2 hc ht1
  have e : u.div x y = u.rnd (r / t) := by
    rw [hr, ht]
    simp only [fpu.div, ne_of_gt htpos, ne_of_gt hrpos, if_false]
  rw [e]
  exact rnd_pos_within u hacc (r / t) (a / d) (b / c) hlo hhi h1 h2

/-- The product of a positive and a negative `double`, negated. -/
theorem neg_mul_within (u : fpu) (hacc : u.accurate) (x y : double) (a b c d : ℚ)
    (hx : x.within a b) (hy : y.within (-d) (-c)) (ha : 0 < a) (hc : 0 < c)
    (hlo : 1 / 1000 ≤ a * c) (hhi : b * d ≤ 10 ^ 6) :
    (u.mul x y).neg.within (a * c * (1 - 1 / 10 ^ 6)) (b * d * (1 + 1 / 10 ^ 6)) := by
  obtain ⟨r, hr, hr1, hr2⟩ := hx
  obtain ⟨t, ht, ht1, ht2⟩ := hy
  have hrpos : 0 < r := by linarith
  have htneg : t < 0 := by linarith
  have h1 : a * c ≤ r * (-t) := mul_le_mul hr1 (by linarith) (le_of_lt hc) (le_of_lt hrpos)
  have h2 : r * (-t) ≤ b * d := mul_le_mul hr2 (by linarith) (by linarith) (by linarith)
  have hprod : r * t < 0 := mul_neg_of_pos_of_neg hrpos htneg
  have habs : |r * t| = r * (-t) := by rw [abs_of_neg hprod]; ring
  have e : u.mul x y = u.rnd (r * t) := by
    rw [hr, ht]
    simp only [fpu.mul, ne_of_lt hprod, if_false]
  have h := hacc.rnd_near (r * t) (by rw [habs]; linarith) (by rw [habs]; linarith)
  rw [habs] at h
  obtain ⟨v, hv, hv1, hv2⟩ := h
  rw [e, hv]
  refine ⟨-v, rfl, ?_, ?_⟩
  · nlinarith
  · nlinarith

theorem to_size_t_within (x : double) (lo hi : ℚ) (m : Nat) (h : x.within lo hi)
    (h1 : (m : ℚ) ≤ lo) (h2 : hi < m + 1) (h3 : (m : ℚ) + 1 ≤ 2 ^ 64) :
    x.to_size_t = some m := by
  obtain ⟨r, hr, hr1, hr2⟩ := h
  have hm : (0 : ℚ) ≤ m := Nat.cast_nonneg m
  have hfloor : ⌊r⌋ = (m : ℤ) := by
    rw [Int.floor_eq_iff]
    constructor
    · push_cast; linarith
    · push_cast; linarith
  rw [hr]
  simp only [double.to_size_t]
  rw [if_neg (by linarith), if_neg (by linarith), if_pos (by linarith), hfloor]
  rfl

theorem round_to_size_t_within (x : double) (lo hi : ℚ) (k : Nat) (h : x.within lo hi)
    (h0 : 0 ≤ lo) (h1 : (k : ℚ) - 1 / 2 ≤ lo) (h2 : hi < k + 1 / 2)
    (h3 : (k : ℚ) + 1 ≤ 2 ^ 64) :
    x.round.to_size_t = some k := by
  obtain ⟨r, hr, hr1, hr2⟩ := h
  have hfloor : ⌊r + 1 / 2⌋ = (k : ℤ) := by
    rw [Int.floor_eq_iff]
    constructor
    · push_cast; linarith
    · push_cast; linarith
  rw [hr]
  simp only [double.round]
  rw [if_pos (by linarith), hfloor]
  apply to_size_t_within _ (k : ℚ) (k : ℚ) k ⟨(k : ℚ), by push_cast; rfl, le_refl _, le_refl _⟩
    (le_refl _) (by linarith) h3

theorem ln2_within (u : fpu) (hacc : u.accurate) :
    (double.finite u.ln2).within (693147 / 10 ^ 6) (693148 / 10 ^ 6) :=
  ⟨u.ln2, rfl, hacc.ln2_near.1, hacc.ln2_near.2⟩

theorem ln2_sq_within (u : fpu) (hacc : u.accurate) :
    (u.mul (.finite u.ln2) (.finite u.ln2)).within (480452 / 10 ^ 6) (480455 / 10 ^ 6) := by
  have h := mul_within u hacc _ _ _ _ _ _ (ln2_within u hacc) (ln2_within u hacc)
    (by norm_num) (by norm_num) (by norm_num) (by norm_num)
  exact within_mono h (by norm_num) (by norm_num)

/-- The sizing lines on an accurate unit, from an enclosure `[-l2, -l1]` of
`std::log` at the rate: `[t1, t2]` encloses `-(num_items * log p)`, `[b1, b2]`
encloses `num_bits`, `[q1, q2]` encloses `num_bits / num_items` and `[h1, h2]`
encloses `num_hashes`. -/
theorem sizing_lines_on_accurate (u : fpu) (hacc : u.accurate) (n : Nat)
    (p l1 l2 t1 t2 b1 b2 q1 q2 h1 h2 : ℚ) (m k : Nat)
    (hn1 : 1 ≤ n) (hn2 : n ≤ 2 ^ 53) (hp : 0 < p)
    (hlog : (u.log p).within (-l2) (-l1)) (hl1 : 0 < l1)
    (ht_lo : 1 / 1000 ≤ (n : ℚ) * l1) (ht_hi : (n : ℚ) * l2 ≤ 10 ^ 6)
    (ht1 : t1 ≤ (n : ℚ) * l1 * (1 - 1 / 10 ^ 6)) (ht2 : (n : ℚ) * l2 * (1 + 1 / 10 ^ 6) ≤ t2)
    (ht1pos : 0 < t1)
    (hb_lo : 1 / 1000 ≤ t1 / (480455 / 10 ^ 6)) (hb_hi : t2 / (480452 / 10 ^ 6) ≤ 10 ^ 6)
    (hb1 : b1 ≤ t1 / (480455 / 10 ^ 6) * (1 - 1 / 10 ^ 6))
    (hb2 : t2 / (480452 / 10 ^ 6) * (1 + 1 / 10 ^ 6) ≤ b2) (hb1pos : 0 < b1)
    (hm1 : (m : ℚ) ≤ b1) (hm2 : b2 < m + 1) (hm3 : (m : ℚ) + 1 ≤ 2 ^ 64)
    (hq_lo : 1 / 1000 ≤ b1 / n) (hq_hi : b2 / n ≤ 10 ^ 6)
    (hq1 : q1 ≤ b1 / n * (1 - 1 / 10 ^ 6)) (hq2 : b2 / n * (1 + 1 / 10 ^ 6) ≤ q2)
    (hq1pos : 0 < q1)
    (hh_lo : 1 / 1000 ≤ q1 * (693147 / 10 ^ 6)) (hh_hi : q2 * (693148 / 10 ^ 6) ≤ 10 ^ 6)
    (hh1 : h1 ≤ q1 * (693147 / 10 ^ 6) * (1 - 1 / 10 ^ 6))
    (hh2 : q2 * (693148 / 10 ^ 6) * (1 + 1 / 10 ^ 6) ≤ h2)
    (hk0 : 0 ≤ h1) (hk1 : (k : ℚ) - 1 / 2 ≤ h1) (hk2 : h2 < k + 1 / 2)
    (hk3 : (k : ℚ) + 1 ≤ 2 ^ 64) :
    sizing_lines u n (.finite p) = some (m, k) := by
  have hnpos : (0 : ℚ) < n := by exact_mod_cast hn1
  have hitems : u.of_size_t n = .finite n := by
    unfold fpu.of_size_t
    rw [if_pos hn2]
  have hwitems : (double.finite (n : ℚ)).within n n := ⟨n, rfl, le_refl _, le_refl _⟩
  have hstd : u.std_log (.finite p) = u.log p := by
    simp only [fpu.std_log]
    rw [if_neg (by linarith), if_neg (ne_of_gt hp)]
  have hT : (u.mul (.finite n) (u.log p)).neg.within t1 t2 :=
    within_mono (neg_mul_within u hacc _ _ _ _ _ _ hwitems hlog hnpos hl1 ht_lo ht_hi) ht1 ht2
  have hB : (num_bits u n (.finite p)).within b1 b2 := by
    unfold num_bits
    simp only [hitems, hstd]
    exact within_mono (div_within u hacc _ _ _ _ _ _ hT (ln2_sq_within u hacc) ht1pos
      (by norm_num) hb_lo hb_hi) hb1 hb2
  have hQ : (u.div (num_bits u n (.finite p)) (.finite n)).within q1 q2 :=
    within_mono (div_within u hacc _ _ _ _ _ _ hB hwitems hb1pos hnpos hq_lo hq_hi) hq1 hq2
  have hH : (num_hashes u n (.finite p)).within h1 h2 := by
    unfold num_hashes
    simp only [hitems]
    exact within_mono (mul_within u hacc _ _ _ _ _ _ hQ (ln2_within u hacc) hq1pos
      (by norm_num) hh_lo hh_hi) hh1 hh2
  unfold sizing_lines
  rw [to_size_t_within _ _ _ m hB hm1 hm2 hm3,
    round_to_size_t_within _ _ _ k hH hk0 hk1 hk2 hk3]

/-- On an accurate unit, one expected item at the rate 0.65 gives no bits and
one hash function. -/
theorem sizing_lines_1_065 (u : fpu) (hacc : u.accurate) (p : ℚ)
    (hp : |p - 65 / 100| ≤ 1 / 10 ^ 9) : sizing_lines u 1 (.finite p) = some (0, 1) := by
  have hp2 := abs_le.mp hp
  exact sizing_lines_on_accurate u hacc 1 p (430781 / 10 ^ 6) (430785 / 10 ^ 6)
    (43 / 100) (44 / 100) (89 / 100) (92 / 100) (88 / 100) (93 / 100) (60 / 100) (65 / 100) 0 1
    (by norm_num) (by norm_num) (by linarith) (hacc.log_near_065 p hp)
    (by norm_num) (by norm_num) (by norm_num) (by norm_num) (by norm_num) (by norm_num)
    (by norm_num) (by norm_num) (by norm_num) (by norm_num) (by norm_num) (by norm_num)
    (by norm_num) (by norm_num) (by norm_num) (by norm_num) (by norm_num) (by norm_num)
    (by norm_num) (by norm_num) (by norm_num) (by norm_num) (by norm_num) (by norm_num)
    (by norm_num) (by norm_num) (by norm_num)

/-- On an accurate unit, three expected items at the rate 0.70 give 2 bits and
one hash function. -/
theorem sizing_lines_3_070 (u : fpu) (hacc : u.accurate) (p : ℚ)
    (hp : |p - 70 / 100| ≤ 1 / 10 ^ 9) : sizing_lines u 3 (.finite p) = some (2, 1) := by
  have hp2 := abs_le.mp hp
  exact sizing_lines_on_accurate u hacc 3 p (356673 / 10 ^ 6) (356677 / 10 ^ 6)
    (107 / 100) (10701 / 10000) (22 / 10) (23 / 10) (73 / 100) (77 / 100) (505 / 1000)
    (54 / 100) 2 1
    (by norm_num) (by norm_num) (by linarith) (hacc.log_near_070 p hp)
    (by norm_num) (by norm_num) (by norm_num) (by norm_num) (by norm_num) (by norm_num)
    (by norm_num) (by norm_num) (by norm_num) (by norm_num) (by norm_num) (by norm_num)
    (by norm_num) (by norm_num) (by norm_num) (by norm_num) (by norm_num) (by norm_num)
    (by norm_num) (by norm_num) (by norm_num) (by norm_num) (by norm_num) (by norm_num)
    (by norm_num) (by norm_num) (by norm_num)

/-- On an accurate unit, 100 expected items at the rate 0.01 give 958 bits and
7 hash functions. -/
theorem sizing_lines_100_001 (u : fpu) (hacc : u.accurate) (p : ℚ)
    (hp : |p - 1 / 100| ≤ 1 / 10 ^ 9) : sizing_lines u 100 (.finite p) = some (958, 7) := by
  have hp2 := abs_le.mp hp
  exact sizing_lines_on_accurate u hacc 100 p (4605169 / 10 ^ 6) (4605171 / 10 ^ 6)
    (460516 / 1000) (460518 / 1000) (9584 / 10) (9586 / 10) (958 / 100) (959 / 100)
    (66 / 10) (67 / 10) 958 7
    (by norm_num) (by norm_num) (by linarith) (hacc.log_near_001 p hp)
    (by norm_num) (by norm_num) (by norm_num) (by norm_num) (by norm_num) (by norm_num)
    (by norm_num) (by norm_num) (by norm_num) (by norm_num) (by norm_num) (by norm_num)
    (by norm_num) (by norm_num) (by norm_num) (by norm_num) (by norm_num) (by norm_num)
    (by norm_num) (by norm_num) (by norm_num) (by norm_num) (by norm_num) (by norm_num)
    (by norm_num) (by norm_num) (by norm_num)

/-- The constructor over the model of `double`, at a rate inside `[0, 1]` where
the sizing lines yield the pair `(m, k)`. -/
theorem bloom_filter_fp_of_sizing (u : fpu) (n : Nat) (p : ℚ) (m k : Nat) (h0 : 0 ≤ p)
    (h1 : p ≤ 1) (h : sizing_lines u n (.finite p) = some (m, k)) :
    bloom_filter.bloom_filter_fp u n (.finite p)
      = some (.ok ⟨List.replicate m false, m, k⟩) := by
  rw [bloom_filter_fp_eq u n (.finite p) (m, k) h, constructor_of_sizing m k n p h0 h1]

theorem table_unit_accurate : table_unit.accurate where
  rnd_near := fun q _ _ => by
    have h : 0 ≤ |q| / 10 ^ 6 := div_nonneg (abs_nonneg q) (by norm_num)
    exact ⟨q, rfl, by linarith, by linarith⟩
  ln2_near := by
    unfold table_unit
    norm_num
  log_near_065 := fun p hp => by
    refine ⟨-(430783 / 10 ^ 6), ?_, by norm_num, by norm_num⟩
    unfold table_unit
    simp only
    rw [if_pos hp]
  log_near_070 := fun p hp => by
    have h := abs_le.mp hp
    have hn : ¬ |p - 65 / 100| ≤ 1 / 10 ^ 9 := by
      intro h65
      have h2 := abs_le.mp h65
      norm_num at h h2
      linarith
    refine ⟨-(356675 / 10 ^ 6), ?_, by norm_num, by norm_num⟩
    unfold table_unit
    simp only
    rw [if_neg hn, if_pos hp]
  log_near_001 := fun p hp => by
    have h := abs_le.mp hp
    have hn65 : ¬ |p - 65 / 100| ≤ 1 / 10 ^ 9 := by
      intro h65
      have h2 := abs_le.mp h65
      norm_num at h h2
      linarith
    have hn70 : ¬ |p - 70 / 100| ≤ 1 / 10 ^ 9 := by
      intro h70
      have h2 := abs_le.mp h70
      norm_num at h h2
      linarith
    refine ⟨-(4605170 / 10 ^ 6), ?_, by norm_num, by norm_num⟩
    unfold table_unit
    simp only
    rw [if_neg hn65, if_neg hn70]

/-- Claim C16 fails as stated.  On every accurate floating-point unit (there is
one), one expected item at the rate 0.65 gives `bit_count = 0` and
`hash_count = 1`, while `(bit_count / n) * ln 2` with the integer
`bit_count = 0` is 0 and rounds to 0. -/
theorem hash_count_not_from_truncated_bits :
    (∀ u : fpu, u.accurate → ∀ p : ℚ, |p - 65 / 100| ≤ 1 / 10 ^ 9 →
      bloom_filter.bloom_filter_fp u 1 (.finite p) = some (.ok ⟨[], 0, 1⟩)) ∧
    table_unit.accurate ∧
    bloom_filter.bloom_filter_fp table_unit 1 (.finite (65 / 100)) = some (.ok ⟨[], 0, 1⟩) ∧
    round (((0 : ℕ) : ℝ) / ((1 : ℕ) : ℝ) * Real.log 2) = 0 := by
  have key : ∀ u : fpu, u.accurate → ∀ p : ℚ, |p - 65 / 100| ≤ 1 / 10 ^ 9 →
      bloom_filter.bloom_filter_fp u 1 (.finite p) = some (.ok ⟨[], 0, 1⟩) := by
    intro u hacc p hp
    have h := abs_le.mp hp
    exact bloom_filter_fp_of_sizing u 1 p 0 1 (by norm_num at h; linarith)
      (by norm_num at h; linarith) (sizing_lines_1_065 u hacc p hp)
  refine ⟨key, table_unit_accurate, key table_unit table_unit_accurate (65 / 100) (by norm_num),
    ?_⟩
  simp

/-! ## Degenerate filter and reference scenario -/

/-- Claim C14, the code on the filter with no bits and one hash function.  With
`hash_count == 0` the query tests nothing and returns `true`, for every filter;
with `bit_count == 0` and `hash_count == 1` the first index is a remainder by
zero, and neither `possibly_contains` nor `insert` completes; this filter is
what the constructor builds for one expected item at the rate 0.65 on every
accurate floating-point unit. -/
theorem degenerate_filter_divides_by_zero :
    (∀ (f : bloom_filter) (x : List UInt8), f.m_khashes = 0 →
      f.possibly_contains x = some true) ∧
    (∀ x : List UInt8, (⟨[], 0, 1⟩ : bloom_filter).possibly_contains x = none) ∧
    (∀ x : List UInt8, (⟨[], 0, 1⟩ : bloom_filter).insert x = none) ∧
    (∀ u : fpu, u.accurate →
      bloom_filter.bloom_filter_fp u 1 (.finite (65 / 100)) = some (.ok ⟨[], 0, 1⟩)) := by
  refine ⟨fun f x hk => ?_, fun x => ?_, fun x => ?_, fun u hacc => ?_⟩
  · unfold bloom_filter.possibly_contains
    rw [hash_pair_eq, hk]
    rfl
  · unfold bloom_filter.possibly_contains
    rw [hash_pair_eq]
    rfl
  · unfold bloom_filter.insert
    rw [hash_pair_eq]
    rfl
  · exact bloom_filter_fp_of_sizing u 1 (65 / 100) 0 1 (by norm_num) (by norm_num)
      (sizing_lines_1_065 u hacc (65 / 100) (by norm_num))

set_option maxRecDepth 100000 in
/-- Claim C20 (reference scenario).  On every accurate floating-point unit the
constructor builds, for 100 expected items at the rate 0.01, the filter with
958 clear bits and 7 hash functions.  In this filter, after `insert("apple")` the query `possibly_contains("banana")`
returns `false` and `possibly_contains("apple")` returns `true`; the indices
derived for `"apple"` are 306, 212, 118, 24, 888, 794, 700, those for
`"banana"` are 457, 655, 853, 93, 291, 489, 687, and the first index of
`"banana"` is not among those of `"apple"`. -/
theorem reference_scenario :
    (((⟨List.replicate 958 false, 958, 7⟩ : bloom_filter).insert
        [0x61, 0x70, 0x70, 0x6c, 0x65]).bind
      fun g => g.possibly_contains [0x62, 0x61, 0x6e, 0x61, 0x6e, 0x61]) = some false ∧
    (((⟨List.replicate 958 false, 958, 7⟩ : bloom_filter).insert
        [0x61, 0x70, 0x70, 0x6c, 0x65]).bind
      fun g => g.possibly_contains [0x61, 0x70, 0x70, 0x6c, 0x65]) = some true ∧
    derived_indices 958 7 [0x61, 0x70, 0x70, 0x6c, 0x65]
      = some [306, 212, 118, 24, 888, 794, 700] ∧
    derived_indices 958 7 [0x62, 0x61, 0x6e, 0x61, 0x6e, 0x61]
      = some [457, 655, 853, 93, 291, 489, 687] ∧
    457 ∉ [306, 212, 118, 24, 888, 794, 700] ∧
    (∀ u : fpu, u.accurate →
      bloom_filter.bloom_filter_fp u 100 (.finite (1 / 100))
        = some (.ok ⟨List.replicate 958 false, 958, 7⟩)) := by
  refine ⟨by decide, by decide, by decide, by decide, by decide, fun u hacc => ?_⟩
  exact bloom_filter_fp_of_sizing u 100 (1 / 100) 958 7 (by norm_num) (by norm_num)
    (sizing_lines_100_001 u hacc (1 / 100) (by norm_num))

/-! ## The sizing arithmetic against the real numbers -/

theorem near_mono {x : double} {t lo hi lo2 hi2 : ℝ} (h : x.near t lo hi) (ht : 0 ≤ t)
    (h1 : lo2 ≤ lo) (h2 : hi ≤ hi2) : x.near t lo2 hi2 := by
  obtain ⟨r, hx, ha, hb⟩ := h
  exact ⟨r, hx, le_trans (mul_le_mul_of_nonneg_left h1 ht) ha,
    le_trans hb (mul_le_mul_of_nonneg_left h2 ht)⟩

theorem accurate_to_real_nonneg (u : fpu) (e : ℝ) (hreal : u.accurate_to_real e) : 0 ≤ e := by
  have h := le_trans (abs_nonneg _) hreal.ln2_near
  have hc : 0 < Real.log 2 := Real.log_pos (by norm_num)
  by_contra hneg
  have : Real.log 2 * e < 0 := mul_neg_of_pos_of_neg hc (not_le.mp hneg)
  linarith only [h, this]

/-- Rounding of a positive exact result `q` that lies in `[t * a, t * b]`. -/
theorem rnd_near_real (u : fpu) (e : ℝ) (hreal : u.accurate_to_real e) (he : e ≤ 1 / 10 ^ 6)
    (q : ℚ) (t a b : ℝ)
    (ht1 : 1 / 10 ^ 29 ≤ t) (ht2 : t ≤ 10 ^ 29) (ha : 1 / 2 ≤ a) (hb : b ≤ 2)
    (h1 : t * a ≤ (q : ℝ)) (h2 : (q : ℝ) ≤ t * b) :
    (u.rnd q).near t (a * (1 - e)) (b * (1 + e)) := by
  have he0 := accurate_to_real_nonneg u e hreal
  have htpos : 0 < t := lt_of_lt_of_le (by norm_num) ht1
  have hlo : (1 / 10 ^ 30 : ℝ) ≤ t * a := by
    have h := mul_le_mul ht1 ha (by norm_num) htpos.le
    norm_num at h ⊢
    linarith only [h]
  have hhi : t * b ≤ (10 ^ 30 : ℝ) := by
    have hbpos : 0 ≤ b := by
      by_contra hneg
      have : t * b < 0 := mul_neg_of_pos_of_neg htpos (not_le.mp hneg)
      linarith only [this, hlo, h1, h2]
    have h := mul_le_mul ht2 hb hbpos (by norm_num)
    norm_num at h ⊢
    linarith only [h]
  have hqlo : (1 / 10 ^ 30 : ℚ) ≤ q := by
    have : ((1 / 10 ^ 30 : ℚ) : ℝ) ≤ (q : ℝ) := by push_cast; linarith only [hlo, h1]
    exact_mod_cast this
  have hqhi : q ≤ (10 ^ 30 : ℚ) := by
    have : (q : ℝ) ≤ ((10 ^ 30 : ℚ) : ℝ) := by push_cast; linarith only [hhi, h2]
    exact_mod_cast this
  have hqpos : 0 < q := lt_of_lt_of_le (by norm_num) hqlo
  have hqrpos : (0 : ℝ) < q := by exact_mod_cast hqpos
  have habs : |q| = q := abs_of_pos hqpos
  obtain ⟨r, hr, hrabs⟩ := hreal.rnd_near q (by rw [habs]; exact hqlo)
    (by rw [habs]; exact hqhi)
  rw [abs_of_pos hqrpos] at hrabs
  have hb2 := abs_le.mp hrabs
  refine ⟨r, hr, ?_, ?_⟩
  · have : t * a * (1 - e) ≤ (q : ℝ) * (1 - e) :=
      mul_le_mul_of_nonneg_right h1 (by linarith only [he])
    linarith only [this, hb2.1]
  · have : (q : ℝ) * (1 + e) ≤ t * b * (1 + e) :=
      mul_le_mul_of_nonneg_right h2 (by linarith only [he0])
    linarith only [this, hb2.2]

/-- Rounding of a negative exact result `q` with `-q` in `[t * a, t * b]`,
negated. -/
theorem rnd_neg_near_real (u : fpu) (e : ℝ) (hreal : u.accurate_to_real e)
    (he : e ≤ 1 / 10 ^ 6) (q : ℚ) (t a b : ℝ)
    (ht1 : 1 / 10 ^ 29 ≤ t) (ht2 : t ≤ 10 ^ 29) (ha : 1 / 2 ≤ a) (hb : b ≤ 2)
    (h1 : t * a ≤ -(q : ℝ)) (h2 : -(q : ℝ) ≤ t * b) :
    (u.rnd q).neg.near t (a * (1 - e)) (b * (1 + e)) := by
  have he0 := accurate_to_real_nonneg u e hreal
  have htpos : 0 < t := lt_of_lt_of_le (by norm_num) ht1
  have hlo : (1 / 10 ^ 30 : ℝ) ≤ t * a := by
    have h := mul_le_mul ht1 ha (by norm_num) htpos.le
    norm_num at h ⊢
    linarith only [h]
  have hhi : t * b ≤ (10 ^ 30 : ℝ) := by
    have hbpos : 0 ≤ b := by
      by_contra hneg
      have : t * b < 0 := mul_neg_of_pos_of_neg htpos (not_le.mp hneg)
      linarith only [this, hlo, h1, h2]
    have h := mul_le_mul ht2 hb hbpos (by norm_num)
    norm_num at h ⊢
    linarith only [h]
  have hqlo : (1 / 10 ^ 30 : ℚ) ≤ -q := by
    have : ((1 / 10 ^ 30 : ℚ) : ℝ) ≤ ((-q : ℚ) : ℝ) := by push_cast; linarith only [hlo, h1]
    exact_mod_cast this
  have hqhi : -q ≤ (10 ^ 30 : ℚ) := by
    have : ((-q : ℚ) : ℝ) ≤ ((10 ^ 30 : ℚ) : ℝ) := by push_cast; linarith only [hhi, h2]
    exact_mod_cast this
  have hqneg : q < 0 := by
    linarith only [lt_of_lt_of_le (by norm_num : (0 : ℚ) < 1 / 10 ^ 30) hqlo]
  have hqrneg : (q : ℝ) < 0 := by exact_mod_cast hqneg
  have habs : |q| = -q := abs_of_neg hqneg
  obtain ⟨r, hr, hrabs⟩ := hreal.rnd_near q (by rw [habs]; exact hqlo)
    (by rw [habs]; exact hqhi)
  rw [abs_of_neg hqrneg] at hrabs
  have hb2 := abs_le.mp hrabs
  rw [hr]
  refine ⟨-r, rfl, ?_, ?_⟩
  · have : t * a * (1 - e) ≤ -(q : ℝ) * (1 - e) :=
      mul_le_mul_of_nonneg_right h1 (by linarith only [he])
    push_cast
    linarith only [this, hb2.2]
  · have : -(q : ℝ) * (1 + e) ≤ t * b * (1 + e) :=
      mul_le_mul_of_nonneg_right h2 (by linarith only [he0])
    push_cast
    linarith only [this, hb2.1]

theorem mul_near (u : fpu) (e : ℝ) (hreal : u.accurate_to_real e) (he : e ≤ 1 / 10 ^ 6)
    (x y : double)
    (t1 t2 a1 b1 a2 b2 : ℝ) (hx : x.near t1 a1 b1) (hy : y.near t2 a2 b2)
    (ht1 : 0 < t1) (ht2 : 0 < t2) (ha1 : 0 < a1) (ha2 : 0 < a2)
    (hlo : 1 / 10 ^ 29 ≤ t1 * t2) (hhi : t1 * t2 ≤ 10 ^ 29)
    (ha : 1 / 2 ≤ a1 * a2) (hb : b1 * b2 ≤ 2) :
    (u.mul x y).near (t1 * t2) (a1 * a2 * (1 - e)) (b1 * b2 * (1 + e)) := by
  obtain ⟨r, hr, hr1, hr2⟩ := hx
  obtain ⟨s, hs, hs1, hs2⟩ := hy
  have hrpos : (0 : ℝ) < r := lt_of_lt_of_le (mul_pos ht1 ha1) hr1
  have hspos : (0 : ℝ) < s := lt_of_lt_of_le (mul_pos ht2 ha2) hs1
  have h1 : t1 * t2 * (a1 * a2) ≤ ((r * s : ℚ) : ℝ) := by
    have := mul_le_mul hr1 hs1 (le_of_lt (mul_pos ht2 ha2)) (le_of_lt hrpos)
    push_cast
    linarith only [this]
  have h2 : ((r * s : ℚ) : ℝ) ≤ t1 * t2 * (b1 * b2) := by
    have := mul_le_mul hr2 hs2 (le_of_lt hspos) (le_trans (le_of_lt hrpos) hr2)
    push_cast
    linarith only [this]
  have hne : r * s ≠ 0 := by
    have : (0 : ℝ) < (r : ℝ) * (s : ℝ) := mul_pos hrpos hspos
    intro h0
    have h0r : (r : ℝ) * (s : ℝ) = 0 := by exact_mod_cast h0
    linarith only [this, h0r]
  have e : u.mul x y = u.rnd (r * s) := by
    rw [hr, hs]
    simp only [fpu.mul, hne, if_false]
  rw [e]
  exact rnd_near_real u _ hreal he (r * s) (t1 * t2) (a1 * a2) (b1 * b2) hlo hhi ha hb h1 h2

theorem div_near (u : fpu) (e : ℝ) (hreal : u.accurate_to_real e) (he : e ≤ 1 / 10 ^ 6)
    (x y : double)
    (t1 t2 a1 b1 a2 b2 : ℝ) (hx : x.near t1 a1 b1) (hy : y.near t2 a2 b2)
    (ht1 : 0 < t1) (ht2 : 0 < t2) (ha1 : 0 < a1) (ha2 : 0 < a2)
    (hlo : 1 / 10 ^ 29 ≤ t1 / t2) (hhi : t1 / t2 ≤ 10 ^ 29)
    (ha : 1 / 2 ≤ a1 / b2) (hb : b1 / a2 ≤ 2) :
    (u.div x y).near (t1 / t2) (a1 / b2 * (1 - e)) (b1 / a2 * (1 + e)) := by
  obtain ⟨r, hr, hr1, hr2⟩ := hx
  obtain ⟨s, hs, hs1, hs2⟩ := hy
  have hrpos : (0 : ℝ) < r := lt_of_lt_of_le (mul_pos ht1 ha1) hr1
  have hspos : (0 : ℝ) < s := lt_of_lt_of_le (mul_pos ht2 ha2) hs1
  have hb2pos : 0 < b2 := by
    have hprod : 0 < t2 * b2 := lt_of_lt_of_le hspos hs2
    by_contra hneg
    have : t2 * b2 ≤ 0 := mul_nonpos_of_nonneg_of_nonpos (le_of_lt ht2) (not_lt.mp hneg)
    linarith only [this, hprod]
  have h1 : t1 / t2 * (a1 / b2) ≤ ((r / s : ℚ) : ℝ) := by
    have := div_le_div₀ (le_of_lt hrpos) hr1 hspos hs2
    have e : t1 / t2 * (a1 / b2) = t1 * a1 / (t2 * b2) := by
      field_simp
    push_cast
    rw [e]
    exact this
  have h2 : ((r / s : ℚ) : ℝ) ≤ t1 / t2 * (b1 / a2) := by
    have := div_le_div₀ (le_trans (le_of_lt hrpos) hr2) hr2 (mul_pos ht2 ha2) hs1
    have e : t1 / t2 * (b1 / a2) = t1 * b1 / (t2 * a2) := by
      field_simp
    push_cast
    rw [e]
    exact this
  have hrq : r ≠ 0 := by
    intro h0; rw [h0] at hrpos; simp at hrpos
  have hsq : s ≠ 0 := by
    intro h0; rw [h0] at hspos; simp at hspos
  have e : u.div x y = u.rnd (r / s) := by
    rw [hr, hs]
    simp only [fpu.div, hsq, hrq, if_false]
  rw [e]
  exact rnd_near_real u _ hreal he (r / s) (t1 / t2) (a1 / b2) (b1 / a2) hlo hhi ha hb h1 h2

theorem neg_mul_near (u : fpu) (e : ℝ) (hreal : u.accurate_to_real e) (he : e ≤ 1 / 10 ^ 6)
    (x : double) (L : ℚ)
    (t1 t2 a1 b1 a2 b2 : ℝ) (hx : x.near t1 a1 b1)
    (hL1 : t2 * a2 ≤ -(L : ℝ)) (hL2 : -(L : ℝ) ≤ t2 * b2)
    (ht1 : 0 < t1) (ht2 : 0 < t2) (ha1 : 0 < a1) (ha2 : 0 < a2)
    (hlo : 1 / 10 ^ 29 ≤ t1 * t2) (hhi : t1 * t2 ≤ 10 ^ 29)
    (ha : 1 / 2 ≤ a1 * a2) (hb : b1 * b2 ≤ 2) :
    (u.mul x (.finite L)).neg.near (t1 * t2) (a1 * a2 * (1 - e)) (b1 * b2 * (1 + e)) := by
  obtain ⟨r, hr, hr1, hr2⟩ := hx
  have hrpos : (0 : ℝ) < r := lt_of_lt_of_le (mul_pos ht1 ha1) hr1
  have hspos : (0 : ℝ) < -(L : ℝ) := lt_of_lt_of_le (mul_pos ht2 ha2) hL1
  have h1 : t1 * t2 * (a1 * a2) ≤ -((r * L : ℚ) : ℝ) := by
    have := mul_le_mul hr1 hL1 (le_of_lt (mul_pos ht2 ha2)) (le_of_lt hrpos)
    push_cast
    linarith only [this]
  have h2 : -((r * L : ℚ) : ℝ) ≤ t1 * t2 * (b1 * b2) := by
    have := mul_le_mul hr2 hL2 (le_of_lt hspos) (le_trans (le_of_lt hrpos) hr2)
    push_cast
    linarith only [this]
  have hne : r * L ≠ 0 := by
    have : (0 : ℝ) < (r : ℝ) * -(L : ℝ) := mul_pos hrpos hspos
    intro h0
    have h0r : (r : ℝ) * (L : ℝ) = 0 := by exact_mod_cast h0
    linarith only [this, h0r]
  have e : u.mul x (.finite L) = u.rnd (r * L) := by
    rw [hr]
    simp only [fpu.mul, hne, if_false]
  rw [e]
  exact rnd_neg_near_real u _ hreal he (r * L) (t1 * t2) (a1 * a2) (b1 * b2) hlo hhi ha hb
    h1 h2

theorem to_size_t_near (x : double) (t lo hi : ℝ) (m : Nat) (h : x.near t lo hi)
    (h1 : (m : ℝ) ≤ t * lo) (h2 : t * hi < m + 1) (h3 : m < 2 ^ 64) :
    x.to_size_t = some m := by
  obtain ⟨r, hr, hr1, hr2⟩ := h
  have e1 : (m : ℚ) ≤ r := by
    have : ((m : ℚ) : ℝ) ≤ (r : ℝ) := by push_cast; linarith only [h1, hr1]
    exact_mod_cast this
  have e2 : r < (m : ℚ) + 1 := by
    have : (r : ℝ) < (((m : ℚ) + 1 : ℚ) : ℝ) := by push_cast; linarith only [h2, hr2]
    exact_mod_cast this
  have e3 : (m : ℚ) + 1 ≤ 2 ^ 64 := by exact_mod_cast h3
  exact to_size_t_within x r r m ⟨r, hr, le_refl r, le_refl r⟩ e1 e2 e3

theorem round_to_size_t_near (x : double) (t lo hi : ℝ) (k : Nat) (h : x.near t lo hi)
    (h0 : 0 ≤ t * lo) (h1 : (k : ℝ) - 1 / 2 ≤ t * lo) (h2 : t * hi < k + 1 / 2)
    (h3 : k < 2 ^ 64) :
    x.round.to_size_t = some k := by
  obtain ⟨r, hr, hr1, hr2⟩ := h
  have e0 : (0 : ℚ) ≤ r := by
    have : ((0 : ℚ) : ℝ) ≤ (r : ℝ) := by push_cast; linarith only [h0, hr1]
    exact_mod_cast this
  have e1 : (k : ℚ) - 1 / 2 ≤ r := by
    have : (((k : ℚ) - 1 / 2 : ℚ) : ℝ) ≤ (r : ℝ) := by push_cast; linarith only [h1, hr1]
    exact_mod_cast this
  have e2 : r < (k : ℚ) + 1 / 2 := by
    have : (r : ℝ) < (((k : ℚ) + 1 / 2 : ℚ) : ℝ) := by push_cast; linarith only [h2, hr2]
    exact_mod_cast this
  have e3 : (k : ℚ) + 1 ≤ 2 ^ 64 := by exact_mod_cast h3
  exact round_to_size_t_within x r r k ⟨r, hr, le_refl r, le_refl r⟩ e0 e1 e2 e3

theorem log_two_bounds : (69 / 100 : ℝ) < Real.log 2 ∧ Real.log 2 < 70 / 100 := by
  have h1 := Real.log_two_gt_d9
  have h2 := Real.log_two_lt_d9
  constructor
  · norm_num at h1 ⊢; linarith only [h1]
  · norm_num at h2 ⊢; linarith only [h2]

theorem ln2_near_real (u : fpu) (e : ℝ) (hreal : u.accurate_to_real e) :
    (double.finite u.ln2).near (Real.log 2) (1 - e) (1 + e) := by
  have h := abs_le.mp hreal.ln2_near
  refine ⟨u.ln2, rfl, ?_, ?_⟩
  · linarith only [h.1]
  · linarith only [h.2]

theorem of_size_t_near (u : fpu) (e : ℝ) (hreal : u.accurate_to_real e) (he : e ≤ 1 / 10 ^ 6)
    (n : Nat) (hn1 : 1 ≤ n) (hn2 : n < 2 ^ 64) :
    (u.of_size_t n).near (n : ℝ) (1 - e) (1 + e) := by
  have he0 := accurate_to_real_nonneg u e hreal
  have hnr1 : (1 : ℝ) ≤ n := by exact_mod_cast hn1
  have hnpos : (0 : ℝ) ≤ n := le_trans (by norm_num) hnr1
  unfold fpu.of_size_t
  split
  · have h := mul_nonneg hnpos he0
    refine ⟨n, rfl, ?_, ?_⟩
    · push_cast
      linarith only [h]
    · push_cast
      linarith only [h]
  · have hnr2 : (n : ℝ) ≤ 2 ^ 64 := by exact_mod_cast hn2.le
    have h := rnd_near_real u e hreal he (n : ℚ) (n : ℝ) 1 1 (le_trans (by norm_num) hnr1)
      (le_trans hnr2 (by norm_num)) (by norm_num) (by norm_num)
      (by push_cast; exact le_of_eq (mul_one _)) (by push_cast; exact le_of_eq (mul_one _).symm)
    exact near_mono h hnpos (by linarith only) (by linarith only)

/-- The relative errors of the sizing arithmetic: each operation multiplies
the enclosure by `1 - e` and `1 + e`, and the products stay inside these
linear bounds while `e ≤ 10 ^ (-6)`. -/
theorem error_factors (e : ℝ) (h0 : 0 ≤ e) (h1 : e ≤ 1 / 10 ^ 6) :
    (1 - 4 * e ≤ (1 - e) * (1 - e) * (1 - e) ∧ (1 + e) * (1 + e) * (1 + e) ≤ 1 + 4 * e) ∧
    (1 - 10 * e ≤ (1 - 4 * e) / (1 + 4 * e) * (1 - e) ∧
      (1 + 4 * e) / (1 - 4 * e) * (1 + e) ≤ 1 + 10 * e) ∧
    (1 - 13 * e ≤ (1 - 10 * e) / (1 + e) * (1 - e) ∧
      (1 + 10 * e) / (1 - e) * (1 + e) ≤ 1 + 13 * e) ∧
    (1 - 20 * e ≤ (1 - 13 * e) * (1 - e) * (1 - e) ∧
      (1 + 13 * e) * (1 + e) * (1 + e) ≤ 1 + 20 * e) := by
  have s0 : 0 ≤ e * e := mul_nonneg h0 h0
  have s1 : e * e ≤ e * (1 / 10 ^ 6) := mul_le_mul_of_nonneg_left h1 h0
  have c0 : 0 ≤ e * e * e := mul_nonneg s0 h0
  have c1 : e * e * e ≤ e * e * (1 / 10 ^ 6) := mul_le_mul_of_nonneg_left h1 s0
  refine ⟨⟨?_, ?_⟩, ⟨?_, ?_⟩, ⟨?_, ?_⟩, ⟨?_, ?_⟩⟩
  · linarith only [s0, s1, c0, c1, h0]
  · linarith only [s0, s1, c0, c1, h0]
  · rw [div_mul_eq_mul_div, le_div_iff₀ (by linarith only [h0])]
    linarith only [s0, s1, c0, c1, h0]
  · rw [div_mul_eq_mul_div, div_le_iff₀ (by linarith only [h1])]
    linarith only [s0, s1, c0, c1, h0]
  · rw [div_mul_eq_mul_div, le_div_iff₀ (by linarith only [h0])]
    linarith only [s0, s1, c0, c1, h0]
  · rw [div_mul_eq_mul_div, div_le_iff₀ (by linarith only [h1])]
    linarith only [s0, s1, c0, c1, h0]
  · linarith only [s0, s1, c0, c1, h0]
  · linarith only [s0, s1, c0, c1, h0]

/-- The enclosures of the sizing arithmetic stay between `1 / 2` and `2`. -/
theorem error_factor_ranges (e : ℝ) (h0 : 0 ≤ e) (h1 : e ≤ 1 / 10 ^ 6) :
    (1 / 2 ≤ (1 - e) * (1 - e) ∧ (1 + e) * (1 + e) ≤ 2) ∧
    (1 / 2 ≤ (1 - 4 * e) / (1 + 4 * e) ∧ (1 + 4 * e) / (1 - 4 * e) ≤ 2) ∧
    (1 / 2 ≤ (1 - 10 * e) / (1 + e) ∧ (1 + 10 * e) / (1 - e) ≤ 2) ∧
    (1 / 2 ≤ (1 - 13 * e) * (1 - e) ∧ (1 + 13 * e) * (1 + e) ≤ 2) := by
  have s0 : 0 ≤ e * e := mul_nonneg h0 h0
  have s1 : e * e ≤ e * (1 / 10 ^ 6) := mul_le_mul_of_nonneg_left h1 h0
  refine ⟨⟨?_, ?_⟩, ⟨?_, ?_⟩, ⟨?_, ?_⟩, ⟨?_, ?_⟩⟩
  · linarith only [s0, s1, h0, h1]
  · linarith only [s0, s1, h0, h1]
  · rw [le_div_iff₀ (by linarith only [h0])]
    linarith only [h0, h1]
  · rw [div_le_iff₀ (by linarith only [h1])]
    linarith only [h0, h1]
  · rw [le_div_iff₀ (by linarith only [h0])]
    linarith only [h0, h1]
  · rw [div_le_iff₀ (by linarith only [h1])]
    linarith only [h0, h1]
  · linarith only [s0, s1, h0, h1]
  · linarith only [s0, s1, h0, h1]

theorem sizing_magnitudes (n l c : ℝ) (hn1 : 1 ≤ n) (hn2 : n ≤ 2 ^ 64)
    (hl1 : 1 / 10 ^ 20 ≤ l) (hl2 : l ≤ 1000) (hc1 : 69 / 100 < c) (hc2 : c < 70 / 100) :
    (1 / 10 ^ 20 ≤ n * l ∧ n * l ≤ 2 ^ 64 * 1000) ∧
    (47 / 100 ≤ c * c ∧ c * c ≤ 49 / 100) ∧
    (1 / 10 ^ 20 ≤ n * l / (c * c) ∧ n * l / (c * c) ≤ 2 ^ 64 * 1000 * 3) ∧
    (1 / 10 ^ 20 ≤ n * l / (c * c) / n ∧ n * l / (c * c) / n ≤ 3000) ∧
    (1 / 10 ^ 21 ≤ n * l / (c * c) / n * c ∧ n * l / (c * c) / n * c ≤ 1450) := by
  have hlpos : 0 < l := lt_of_lt_of_le (by norm_num) hl1
  have hnpos : 0 < n := by linarith only [hn1]
  have hcpos : 0 < c := by linarith only [hc1]
  have hT1 : 1 / 10 ^ 20 ≤ n * l := le_trans hl1 (le_mul_of_one_le_left hlpos.le hn1)
  have hT2 : n * l ≤ 2 ^ 64 * 1000 := mul_le_mul hn2 hl2 hlpos.le (by norm_num)
  have hD1 : 47 / 100 ≤ c * c := by
    have h := mul_le_mul hc1.le hc1.le (by norm_num) hcpos.le
    norm_num at h ⊢
    linarith only [h]
  have hD2 : c * c ≤ 49 / 100 := by
    have h := mul_le_mul hc2.le hc2.le hcpos.le (by norm_num)
    norm_num at h ⊢
    linarith only [h]
  have hDpos : 0 < c * c := by linarith only [hD1]
  have hB1 : 1 / 10 ^ 20 ≤ n * l / (c * c) := by
    rw [le_div_iff₀ hDpos]
    linarith only [hT1, hD2]
  have hB2 : n * l / (c * c) ≤ 2 ^ 64 * 1000 * 3 := by
    rw [div_le_iff₀ hDpos]
    linarith only [hT2, hD1]
  have hQe : n * l / (c * c) / n = l / (c * c) := by
    field_simp
    ring
  have hQ1 : 1 / 10 ^ 20 ≤ n * l / (c * c) / n := by
    rw [hQe, le_div_iff₀ hDpos]
    linarith only [hl1, hD2]
  have hQ2 : n * l / (c * c) / n ≤ 3000 := by
    rw [hQe, div_le_iff₀ hDpos]
    linarith only [hl2, hD1]
  have hQpos : 0 < n * l / (c * c) / n := lt_of_lt_of_le (by norm_num) hQ1
  have hH1 : 1 / 10 ^ 21 ≤ n * l / (c * c) / n * c := by
    have h := mul_le_mul hQ1 hc1.le (by norm_num) hQpos.le
    norm_num at h ⊢
    linarith only [h]
  have hHe : n * l / (c * c) / n * c = l / c := by
    field_simp
    ring
  have hH2 : n * l / (c * c) / n * c ≤ 1450 := by
    rw [hHe, div_le_iff₀ hcpos]
    linarith only [hl2, hc1]
  exact ⟨⟨hT1, hT2⟩, ⟨hD1, hD2⟩, ⟨hB1, hB2⟩, ⟨hQ1, hQ2⟩, ⟨hH1, hH2⟩⟩

theorem law_values_eq (n : Nat) (p : ℚ) :
    law_bit_value n p = (n : ℝ) * -Real.log p / (Real.log 2 * Real.log 2) ∧
    law_hash_value n p
      = (n : ℝ) * -Real.log p / (Real.log 2 * Real.log 2) / n * Real.log 2 := by
  have eB : law_bit_value n p = (n : ℝ) * -Real.log p / (Real.log 2 * Real.log 2) := by
    unfold law_bit_value
    rw [pow_two]
    ring
  refine ⟨eB, ?_⟩
  unfold law_hash_value
  rw [eB]

/-- On a unit of accuracy `e` against the real numbers, the `double` values
`num_bits` and `num_hashes` are the real values of the sizing law to a relative
`10 * e` and `20 * e`. -/
theorem sizing_values_near (u : fpu) (e : ℝ) (hreal : u.accurate_to_real e)
    (he : e ≤ 1 / 10 ^ 6) (n : Nat) (p : ℚ)
    (hn1 : 1 ≤ n) (hn2 : n < 2 ^ 64) (hp0 : 0 < p)
    (hlog : u.log_accurate_at e p)
    (hl1 : 1 / 10 ^ 20 ≤ -Real.log p) (hl2 : -Real.log p ≤ 1000) :
    (num_bits u n (.finite p)).near (law_bit_value n p) (1 - 10 * e) (1 + 10 * e) ∧
    (num_hashes u n (.finite p)).near (law_hash_value n p) (1 - 20 * e) (1 + 20 * e) := by
  have he0 := accurate_to_real_nonneg u e hreal
  obtain ⟨⟨fA1, fA2⟩, ⟨fB1, fB2⟩, ⟨fC1, fC2⟩, ⟨fD1, fD2⟩⟩ := error_factors e he0 he
  obtain ⟨⟨rA1, rA2⟩, ⟨rB1, rB2⟩, ⟨rC1, rC2⟩, ⟨rD1, rD2⟩⟩ := error_factor_ranges e he0 he
  have p1 : 0 < 1 - e := by linarith only [he]
  have p4 : 0 < 1 - 4 * e := by linarith only [he]
  have p10 : 0 < 1 - 10 * e := by linarith only [he]
  have p13 : 0 < 1 - 13 * e := by linarith only [he]
  obtain ⟨hc1, hc2⟩ := log_two_bounds
  obtain ⟨L, hL, hLnear⟩ := hlog
  have hlpos : 0 < -Real.log p := lt_of_lt_of_le (by norm_num) hl1
  have habs : |Real.log p| = -Real.log p := abs_of_neg (by linarith only [hlpos])
  rw [habs] at hLnear
  have hLb := abs_le.mp hLnear
  have hnr1 : (1 : ℝ) ≤ n := by exact_mod_cast hn1
  have hnr2 : (n : ℝ) ≤ 2 ^ 64 := by exact_mod_cast hn2.le
  have hnpos : (0 : ℝ) < n := lt_of_lt_of_le one_pos hnr1
  have hcpos : 0 < Real.log 2 := lt_trans (by norm_num) hc1
  obtain ⟨⟨hT1, hT2⟩, ⟨hD1, hD2⟩, ⟨hB1, hB2⟩, ⟨hQ1, hQ2⟩, ⟨hH1, hH2⟩⟩ :=
    sizing_magnitudes n (-Real.log p) (Real.log 2) hnr1 hnr2 hl1 hl2 hc1 hc2
  have hDpos : 0 < Real.log 2 * Real.log 2 := lt_of_lt_of_le (by norm_num) hD1
  have hTpos : 0 < (n : ℝ) * -Real.log p := lt_of_lt_of_le (by norm_num) hT1
  have hBpos : 0 < (n : ℝ) * -Real.log p / (Real.log 2 * Real.log 2) :=
    lt_of_lt_of_le (by norm_num) hB1
  have hQpos : 0 < (n : ℝ) * -Real.log p / (Real.log 2 * Real.log 2) / n :=
    lt_of_lt_of_le (by norm_num) hQ1
  have hHpos : 0 < (n : ℝ) * -Real.log p / (Real.log 2 * Real.log 2) / n * Real.log 2 :=
    lt_of_lt_of_le (by norm_num) hH1
  -- the values of the unit
  have hitems := of_size_t_near u e hreal he n hn1 hn2
  have hln2 := ln2_near_real u e hreal
  have hstd : u.std_log (.finite p) = .finite L := by
    simp only [fpu.std_log]
    rw [if_neg (not_lt.mpr hp0.le), if_neg (ne_of_gt hp0), hL]
  have hLlo : -Real.log p * (1 - e) ≤ -(L : ℝ) := by linarith only [hLb.2]
  have hLhi : -(L : ℝ) ≤ -Real.log p * (1 + e) := by linarith only [hLb.1]
  have hT : (u.mul (u.of_size_t n) (.finite L)).neg.near ((n : ℝ) * -Real.log p)
      (1 - 4 * e) (1 + 4 * e) :=
    near_mono
      (neg_mul_near u e hreal he _ L _ _ _ _ _ _ hitems hLlo hLhi hnpos hlpos p1 p1
        (le_trans (by norm_num) hT1) (le_trans hT2 (by norm_num)) rA1 rA2)
      hTpos.le fA1 fA2
  have hD : (u.mul (.finite u.ln2) (.finite u.ln2)).near (Real.log 2 * Real.log 2)
      (1 - 4 * e) (1 + 4 * e) :=
    near_mono
      (mul_near u e hreal he _ _ _ _ _ _ _ _ hln2 hln2 hcpos hcpos p1 p1
        (le_trans (by norm_num) hD1) (le_trans hD2 (by norm_num)) rA1 rA2)
      hDpos.le fA1 fA2
  have hB : (num_bits u n (.finite p)).near
      ((n : ℝ) * -Real.log p / (Real.log 2 * Real.log 2)) (1 - 10 * e) (1 + 10 * e) := by
    unfold num_bits
    simp only [hstd]
    exact near_mono
      (div_near u e hreal he _ _ _ _ _ _ _ _ hT hD hTpos hDpos p4 p4
        (le_trans (by norm_num) hB1) (le_trans hB2 (by norm_num)) rB1 rB2)
      hBpos.le fB1 fB2
  have hQ : (u.div (num_bits u n (.finite p)) (u.of_size_t n)).near
      ((n : ℝ) * -Real.log p / (Real.log 2 * Real.log 2) / n)
      (1 - 13 * e) (1 + 13 * e) :=
    near_mono
      (div_near u e hreal he _ _ _ _ _ _ _ _ hB hitems hBpos hnpos p10 p1
        (le_trans (by norm_num) hQ1) (le_trans hQ2 (by norm_num)) rC1 rC2)
      hQpos.le fC1 fC2
  have hH : (num_hashes u n (.finite p)).near
      ((n : ℝ) * -Real.log p / (Real.log 2 * Real.log 2) / n * Real.log 2)
      (1 - 20 * e) (1 + 20 * e) := by
    unfold num_hashes
    exact near_mono
      (mul_near u e hreal he _ _ _ _ _ _ _ _ hQ hln2 hQpos hcpos p13 p1
        (le_trans (by norm_num) hH1) (le_trans hH2 (by norm_num)) rD1 rD2)
      hHpos.le fD1 fD2
  obtain ⟨eB, eH⟩ := law_values_eq n p
  rw [eB, eH]
  exact ⟨hB, hH⟩

theorem law_value_bounds (n : Nat) (p : ℚ) (hn1 : 1 ≤ n) (hn2 : n < 2 ^ 64)
    (hl1 : 1 / 10 ^ 20 ≤ -Real.log p) (hl2 : -Real.log p ≤ 1000) :
    0 < law_bit_value n p ∧ 0 < law_hash_value n p ∧ law_hash_value n p ≤ 1450 := by
  obtain ⟨hc1, hc2⟩ := log_two_bounds
  have hnr1 : (1 : ℝ) ≤ n := by exact_mod_cast hn1
  have hnr2 : (n : ℝ) ≤ 2 ^ 64 := by exact_mod_cast hn2.le
  obtain ⟨-, -, ⟨hB1, -⟩, -, ⟨hH1, hH2⟩⟩ :=
    sizing_magnitudes n (-Real.log p) (Real.log 2) hnr1 hnr2 hl1 hl2 hc1 hc2
  obtain ⟨eB, eH⟩ := law_values_eq n p
  rw [eB, eH]
  exact ⟨lt_of_lt_of_le (by norm_num) hB1, lt_of_lt_of_le (by norm_num) hH1, hH2⟩

/-- The sizing lines against the real-valued law, on a unit of accuracy `e`:
where the real bit value has a relative margin of `10 * e` inside `[m, m + 1)`
and the real hash value a relative margin of `20 * e` inside
`[k - 1/2, k + 1/2)`, the conversions give `m` and `k`, which are the truncated
and the rounded real values. -/
theorem sizing_lines_real (u : fpu) (e : ℝ) (hreal : u.accurate_to_real e)
    (he : e ≤ 1 / 10 ^ 6) (n : Nat) (p : ℚ)
    (m k : Nat) (hn1 : 1 ≤ n) (hn2 : n < 2 ^ 64) (hp0 : 0 < p)
    (hlog : u.log_accurate_at e p)
    (hl1 : 1 / 10 ^ 20 ≤ -Real.log p) (hl2 : -Real.log p ≤ 1000)
    (hm1 : (m : ℝ) ≤ law_bit_value n p * (1 - 10 * e))
    (hm2 : law_bit_value n p * (1 + 10 * e) < m + 1) (hm3 : m < 2 ^ 64)
    (hk1 : (k : ℝ) - 1 / 2 ≤ law_hash_value n p * (1 - 20 * e))
    (hk2 : law_hash_value n p * (1 + 20 * e) < k + 1 / 2) :
    sizing_lines u n (.finite p) = some (m, k) ∧
    m = ⌊law_bit_value n p⌋₊ ∧ (k : ℤ) = round (law_hash_value n p) := by
  have he0 := accurate_to_real_nonneg u e hreal
  obtain ⟨hB, hH⟩ := sizing_values_near u e hreal he n p hn1 hn2 hp0 hlog hl1 hl2
  obtain ⟨hxpos, hypos, hy2⟩ := law_value_bounds n p hn1 hn2 hl1 hl2
  have hxe : 0 ≤ law_bit_value n p * e := mul_nonneg hxpos.le he0
  have hye : 0 ≤ law_hash_value n p * e := mul_nonneg hypos.le he0
  have hx1 : law_bit_value n p * (1 - 10 * e) ≤ law_bit_value n p := by
    linarith only [hxe]
  have hx2 : law_bit_value n p ≤ law_bit_value n p * (1 + 10 * e) := by
    linarith only [hxe]
  have hy1 : law_hash_value n p * (1 - 20 * e) ≤ law_hash_value n p := by
    linarith only [hye]
  have hy3 : law_hash_value n p ≤ law_hash_value n p * (1 + 20 * e) := by
    linarith only [hye]
  have hk3 : k < 2 ^ 64 := by
    have h : (k : ℝ) < 2 ^ 64 := by
      have : (k : ℝ) ≤ 1451 := by linarith only [hk1, hy1, hy2]
      exact lt_of_le_of_lt this (by norm_num)
    exact_mod_cast h
  have e1 := to_size_t_near _ _ _ _ m hB hm1 hm2 hm3
  have e2 := round_to_size_t_near _ _ _ _ k hH
    (mul_nonneg hypos.le (by linarith only [he])) hk1 hk2 hk3
  refine ⟨?_, ?_, ?_⟩
  · unfold sizing_lines
    rw [e1, e2]
  · symm
    rw [Nat.floor_eq_iff hxpos.le]
    exact ⟨le_trans hm1 hx1, lt_of_le_of_lt hx2 hm2⟩
  · symm
    rw [round_eq, Int.floor_eq_iff]
    push_cast
    constructor
    · linarith only [hk1, hy1]
    · linarith only [hk2, hy3]

theorem half_unit_accurate : half_unit.accurate where
  rnd_near := fun q _ _ => by
    have h : 0 ≤ |q| / 10 ^ 6 := div_nonneg (abs_nonneg q) (by norm_num)
    exact ⟨q, rfl, by linarith only [h], by linarith only [h]⟩
  ln2_near := by
    unfold half_unit
    norm_num
  log_near_065 := fun p hp => by
    have hne : p ≠ 1 / 2 := by
      intro h
      rw [h] at hp
      norm_num [abs_le] at hp
    have e : half_unit.log p = table_unit.log p := by
      unfold half_unit
      simp only
      rw [if_neg hne]
    rw [e]
    exact table_unit_accurate.log_near_065 p hp
  log_near_070 := fun p hp => by
    have hne : p ≠ 1 / 2 := by
      intro h
      rw [h] at hp
      norm_num [abs_le] at hp
    have e : half_unit.log p = table_unit.log p := by
      unfold half_unit
      simp only
      rw [if_neg hne]
    rw [e]
    exact table_unit_accurate.log_near_070 p hp
  log_near_001 := fun p hp => by
    have hne : p ≠ 1 / 2 := by
      intro h
      rw [h] at hp
      norm_num [abs_le] at hp
    have e : half_unit.log p = table_unit.log p := by
      unfold half_unit
      simp only
      rw [if_neg hne]
    rw [e]
    exact table_unit_accurate.log_near_001 p hp

theorem half_unit_ln2_error :
    |((287209 / 414355 : ℚ) : ℝ) - Real.log 2| ≤ Real.log 2 * (2 / 10 ^ 10) := by
  have h := abs_le.mp Real.log_two_near_10
  have hc := log_two_bounds.1
  rw [abs_le]
  push_cast
  constructor
  · linarith only [h.1, h.2, hc]
  · linarith only [h.1, h.2, hc]

/-- The unit `half_unit` has the accuracy `2 * 10 ^ (-10)` against the real
numbers. -/
theorem half_unit_accurate_to_real : half_unit.accurate_to_real (2 / 10 ^ 10) where
  rnd_near := fun q _ _ => by
    refine ⟨q, rfl, ?_⟩
    rw [sub_self, abs_zero]
    exact mul_nonneg (abs_nonneg _) (by norm_num)
  ln2_near := half_unit_ln2_error

theorem log_half : Real.log ((1 / 2 : ℚ) : ℝ) = -Real.log 2 := by
  push_cast
  rw [one_div, Real.log_inv]

theorem half_unit_log_accurate : half_unit.log_accurate_at (2 / 10 ^ 10) (1 / 2) := by
  refine ⟨-(287209 / 414355), ?_, ?_⟩
  · unfold half_unit
    simp only
    rfl
  · rw [log_half, abs_neg]
    have hc := log_two_bounds.1
    rw [abs_of_pos (lt_trans (by norm_num) hc)]
    have h := half_unit_ln2_error
    have e : ((-(287209 / 414355) : ℚ) : ℝ) - -Real.log 2
        = -(((287209 / 414355 : ℚ) : ℝ) - Real.log 2) := by
      push_cast
      ring
    rw [e, abs_neg]
    exact h

/-- The real logarithm of 0.70 to four places. -/
theorem log_070_bounds :
    -(3568 / 10000 : ℝ) ≤ Real.log (7 / 10) ∧ Real.log (7 / 10) ≤ -(3566 / 10000) := by
  have t : |(3 / 10 : ℝ)| = 3 / 10 := abs_of_pos (by norm_num)
  have z := Real.abs_log_sub_add_sum_range_le (show |(3 / 10 : ℝ)| < 1 by rw [t]; norm_num) 8
  rw [t] at z
  norm_num [Finset.sum_range_succ] at z
  have h := abs_le.mp z
  constructor
  · linarith only [h.1]
  · linarith only [h.2]

/-- The real logarithm of 0.80 to four places. -/
theorem log_080_bounds :
    -(2232 / 10000 : ℝ) ≤ Real.log (4 / 5) ∧ Real.log (4 / 5) ≤ -(2231 / 10000) := by
  have t : |(1 / 5 : ℝ)| = 1 / 5 := abs_of_pos (by norm_num)
  have z := Real.abs_log_sub_add_sum_range_le (show |(1 / 5 : ℝ)| < 1 by rw [t]; norm_num) 6
  rw [t] at z
  norm_num [Finset.sum_range_succ] at z
  have h := abs_le.mp z
  constructor
  · linarith only [h.1]
  · linarith only [h.2]

/-- The real logarithm of 0.01 to three places. -/
theorem log_001_bounds :
    -(46054 / 10000 : ℝ) ≤ Real.log (1 / 100) ∧ Real.log (1 / 100) ≤ -(46050 / 10000) := by
  have e : (1 / 100 : ℝ) = (4 / 5) ^ 2 * (2⁻¹) ^ 6 := by norm_num
  have h1 := Real.log_two_gt_d9
  have h2 := Real.log_two_lt_d9
  obtain ⟨h3, h4⟩ := log_080_bounds
  rw [e, Real.log_mul (by norm_num) (by norm_num), Real.log_pow, Real.log_pow, Real.log_inv]
  norm_num at h1 h2 ⊢
  constructor
  · linarith only [h1, h2, h3, h4]
  · linarith only [h1, h2, h3, h4]

/-- The real values of the law at the two worked sizes: for 3 items at the
rate 0.70 the bit value truncates to 2 and the hash value rounds to 1; for 100
items at the rate 0.01 they give 958 and 7. -/
theorem law_examples :
    (⌊law_bit_value 3 (7 / 10)⌋₊ = 2 ∧ round (law_hash_value 3 (7 / 10)) = 1) ∧
    (⌊law_bit_value 100 (1 / 100)⌋₊ = 958 ∧ round (law_hash_value 100 (1 / 100)) = 7) := by
  have h1 := Real.log_two_gt_d9
  have h2 := Real.log_two_lt_d9
  norm_num at h1 h2
  have hcpos : 0 < Real.log 2 := by linarith only [h1]
  have hD1 : 480453 / 1000000 ≤ Real.log 2 * Real.log 2 := by
    have h := mul_le_mul h1.le h1.le (by norm_num) hcpos.le
    norm_num at h ⊢
    linarith only [h]
  have hD2 : Real.log 2 * Real.log 2 ≤ 480454 / 1000000 := by
    have h := mul_le_mul h2.le h2.le hcpos.le (by norm_num)
    norm_num at h ⊢
    linarith only [h]
  have hDpos : 0 < Real.log 2 * Real.log 2 := by linarith only [hD1]
  obtain ⟨a1, a2⟩ := log_070_bounds
  obtain ⟨b1, b2⟩ := log_001_bounds
  have e7 : ((7 / 10 : ℚ) : ℝ) = 7 / 10 := by push_cast; rfl
  have e1 : ((1 / 100 : ℚ) : ℝ) = 1 / 100 := by push_cast; rfl
  obtain ⟨eB3, eH3⟩ := law_values_eq 3 (7 / 10)
  obtain ⟨eB100, eH100⟩ := law_values_eq 100 (1 / 100)
  rw [e7] at eB3 eH3
  rw [e1] at eB100 eH100
  have q3 : ((3 : ℕ) : ℝ) * -Real.log (7 / 10) / (Real.log 2 * Real.log 2) / ((3 : ℕ) : ℝ)
      * Real.log 2 = -Real.log (7 / 10) / Real.log 2 := by
    field_simp
    ring
  have q100 : ((100 : ℕ) : ℝ) * -Real.log (1 / 100) / (Real.log 2 * Real.log 2)
      / ((100 : ℕ) : ℝ) * Real.log 2 = -Real.log (1 / 100) / Real.log 2 := by
    field_simp
    ring
  rw [q3] at eH3
  rw [q100] at eH100
  refine ⟨⟨?_, ?_⟩, ⟨?_, ?_⟩⟩
  · rw [eB3, Nat.floor_eq_iff (div_nonneg (by push_cast; linarith only [a2]) hDpos.le)]
    push_cast
    rw [le_div_iff₀ hDpos, div_lt_iff₀ hDpos]
    constructor
    · linarith only [a2, hD2]
    · linarith only [a1, hD1]
  · rw [eH3, round_eq, Int.floor_eq_iff]
    push_cast
    constructor
    · have : 1 / 2 ≤ -Real.log (7 / 10) / Real.log 2 := by
        rw [le_div_iff₀ hcpos]
        linarith only [a2, h2]
      linarith only [this]
    · have : -Real.log (7 / 10) / Real.log 2 < 1 := by
        rw [div_lt_iff₀ hcpos]
        linarith only [a1, h1]
      linarith only [this]
  · rw [eB100, Nat.floor_eq_iff (div_nonneg (by push_cast; linarith only [b2]) hDpos.le)]
    push_cast
    rw [le_div_iff₀ hDpos, div_lt_iff₀ hDpos]
    constructor
    · linarith only [b2, hD2]
    · linarith only [b1, hD1]
  · rw [eH100, round_eq, Int.floor_eq_iff]
    push_cast
    constructor
    · have : 13 / 2 ≤ -Real.log (1 / 100) / Real.log 2 := by
        rw [le_div_iff₀ hcpos]
        linarith only [b2, h2]
      linarith only [this]
    · have : -Real.log (1 / 100) / Real.log 2 < 7 := by
        rw [div_lt_iff₀ hcpos]
        linarith only [b1, h1]
      linarith only [this]

theorem law_values_half (n : Nat) (hn : 1 ≤ n) :
    law_bit_value n (1 / 2) = n / Real.log 2 ∧ law_hash_value n (1 / 2) = 1 := by
  have hc := log_two_bounds.1
  have hne : Real.log 2 ≠ 0 := ne_of_gt (lt_trans (by norm_num) hc)
  have hnr : (n : ℝ) ≠ 0 := by
    have : (1 : ℝ) ≤ n := by exact_mod_cast hn
    exact ne_of_gt (lt_of_lt_of_le one_pos this)
  have eB : law_bit_value n (1 / 2) = n / Real.log 2 := by
    unfold law_bit_value
    rw [log_half]
    field_simp
    ring
  refine ⟨eB, ?_⟩
  unfold law_hash_value
  rw [eB]
  field_simp
  ring

/-- The logarithm of a rate between `10 ^ (-250)` and `1 - 10 ^ (-20)` has a
magnitude between `10 ^ (-20)` and 1000. -/
theorem rate_log_range (p : ℚ) (h1 : 1 / 10 ^ 250 ≤ p) (h2 : p ≤ 1 - 1 / 10 ^ 20) :
    0 < p ∧ p < 1 ∧ 1 / 10 ^ 20 ≤ -Real.log p ∧ -Real.log p ≤ 1000 := by
  have hp0 : 0 < p := lt_of_lt_of_le (by positivity) h1
  have hp1 : p < 1 := lt_of_le_of_lt h2 (by norm_num)
  have hr0 : (0 : ℝ) < p := by exact_mod_cast hp0
  have hr1 : (1 / 10 ^ 250 : ℝ) ≤ p := by
    have h : ((1 / 10 ^ 250 : ℚ) : ℝ) ≤ (p : ℝ) := by exact_mod_cast h1
    push_cast at h
    exact h
  have hr2 : (p : ℝ) ≤ 1 - 1 / 10 ^ 20 := by
    have h : (p : ℝ) ≤ ((1 - 1 / 10 ^ 20 : ℚ) : ℝ) := by exact_mod_cast h2
    push_cast at h
    exact h
  refine ⟨hp0, hp1, ?_, ?_⟩
  · have h := Real.log_le_sub_one_of_pos hr0
    linarith only [h, hr2]
  · have h := Real.log_le_log (by positivity) hr1
    have e10 : (10 : ℝ) = 2 ^ 3 * (4 / 5)⁻¹ := by norm_num
    have l10 : Real.log 10 = 3 * Real.log 2 - Real.log (4 / 5) := by
      rw [e10, Real.log_mul (by norm_num) (by norm_num), Real.log_pow, Real.log_inv]
      push_cast
      ring
    rw [one_div, Real.log_inv, Real.log_pow, l10] at h
    have c2 := log_two_bounds.2
    have c8 := log_080_bounds.1
    push_cast at h
    linarith only [h, c2, c8]

/-- Claim C16, amended: the sizing law, up to the floating-point precision and
with the hash count formed from the untruncated bit value.  Let the
floating-point unit round to a relative `e`, `e ≤ 10 ^ (-6)`, against the real
numbers (`fpu.accurate_to_real`; an IEEE double unit does for
`e = 2 ^ (-53)`).  For every `size_t` `n ≥ 1` and every rate `p` in (0, 1) with
`10 ^ (-20) ≤ -ln p ≤ 1000` (every `double` in (0, 1) has `-ln p` between
`10 ^ (-16)` and 745) whose logarithm the unit has to a relative `e`, write
`x = -(n * ln p) / (ln 2)^2` and `y = (x / n) * ln 2` for the real values, `y`
formed from the untruncated `x`.  Then the `double` `num_bits` is `x` to a
relative `10 * e` and the `double` `num_hashes` is `y` to a relative `20 * e`;
and whenever `x` lies inside `[m, m + 1)` with a relative margin of `10 * e`,
for a `size_t` `m`, and `y` inside `[k - 1/2, k + 1/2)` with a relative margin
of `20 * e`, the constructor returns the filter of `m` clear bits with
`bit_count = m` and `hash_count = k`, and `m` is `x` truncated toward zero and
`k` is `y` rounded to the nearest integer.  The worked sizes: on a unit
accurate on the worked rates (`fpu.accurate`) 3 items at the rate 0.70 give 2
bits (and 1 hash), 100 items at the rate 0.01 give 958 bits and 7 hashes, and
these are the truncated and rounded real values of the law. -/
theorem sizing_law (u : fpu) (e : ℝ) (he : e ≤ 1 / 10 ^ 6) (hreal : u.accurate_to_real e)
    (hacc : u.accurate) :
    (∀ (n : Nat) (p : ℚ), 1 ≤ n → n < 2 ^ 64 → 0 < p → p < 1 →
      1 / 10 ^ 20 ≤ -Real.log p → -Real.log p ≤ 1000 → u.log_accurate_at e p →
      (num_bits u n (.finite p)).near (law_bit_value n p) (1 - 10 * e) (1 + 10 * e) ∧
      (num_hashes u n (.finite p)).near (law_hash_value n p) (1 - 20 * e) (1 + 20 * e) ∧
      ∀ m k : Nat,
        (m : ℝ) ≤ law_bit_value n p * (1 - 10 * e) →
        law_bit_value n p * (1 + 10 * e) < m + 1 → m < 2 ^ 64 →
        (k : ℝ) - 1 / 2 ≤ law_hash_value n p * (1 - 20 * e) →
        law_hash_value n p * (1 + 20 * e) < k + 1 / 2 →
        bloom_filter.bloom_filter_fp u n (.finite p)
          = some (.ok ⟨List.replicate m false, m, k⟩) ∧
        m = ⌊law_bit_value n p⌋₊ ∧ (k : ℤ) = round (law_hash_value n p)) ∧
    (∀ p : ℚ, |p - 70 / 100| ≤ 1 / 10 ^ 9 →
      bloom_filter.bloom_filter_fp u 3 (.finite p)
        = some (.ok ⟨List.replicate 2 false, 2, 1⟩)) ∧
    (∀ p : ℚ, |p - 1 / 100| ≤ 1 / 10 ^ 9 →
      bloom_filter.bloom_filter_fp u 100 (.finite p)
        = some (.ok ⟨List.replicate 958 false, 958, 7⟩)) ∧
    (⌊law_bit_value 3 (7 / 10)⌋₊ = 2 ∧ round (law_hash_value 3 (7 / 10)) = 1) ∧
    (⌊law_bit_value 100 (1 / 100)⌋₊ = 958 ∧ round (law_hash_value 100 (1 / 100)) = 7) := by
  refine ⟨?_, fun p hp => ?_, fun p hp => ?_, law_examples.1, law_examples.2⟩
  · intro n p hn1 hn2 hp0 hp1 hl1 hl2 hlog
    obtain ⟨hB, hH⟩ := sizing_values_near u e hreal he n p hn1 hn2 hp0 hlog hl1 hl2
    refine ⟨hB, hH, ?_⟩
    intro m k hm1 hm2 hm3 hk1 hk2
    obtain ⟨hs, hm, hk⟩ :=
      sizing_lines_real u e hreal he n p m k hn1 hn2 hp0 hlog hl1 hl2 hm1 hm2 hm3 hk1 hk2
    exact ⟨bloom_filter_fp_of_sizing u n p m k hp0.le hp1.le hs, hm, hk⟩
  · have h := abs_le.mp hp
    exact bloom_filter_fp_of_sizing u 3 p 2 1 (by norm_num at h; linarith)
      (by norm_num at h; linarith) (sizing_lines_3_070 u hacc p hp)
  · have h := abs_le.mp hp
    exact bloom_filter_fp_of_sizing u 100 p 958 7 (by norm_num at h; linarith)
      (by norm_num at h; linarith) (sizing_lines_100_001 u hacc p hp)

theorem sizing_law_witness :
    ((2 / 10 ^ 10 : ℝ) ≤ 1 / 10 ^ 6 ∧ half_unit.accurate_to_real (2 / 10 ^ 10) ∧
      half_unit.accurate ∧ half_unit.log_accurate_at (2 / 10 ^ 10) (1 / 2)) ∧
    (bloom_filter.bloom_filter_fp half_unit 1000 (.finite (1 / 2))
        = some (.ok ⟨List.replicate 1442 false, 1442, 1⟩) ∧
      1442 = ⌊law_bit_value 1000 (1 / 2)⌋₊ ∧
      ((1 : ℕ) : ℤ) = round (law_hash_value 1000 (1 / 2))) ∧
    bloom_filter.bloom_filter_fp half_unit 3 (.finite (70 / 100))
      = some (.ok ⟨List.replicate 2 false, 2, 1⟩) ∧
    bloom_filter.bloom_filter_fp half_unit 100 (.finite (1 / 100))
      = some (.ok ⟨List.replicate 958 false, 958, 7⟩) := by
  have he : (2 / 10 ^ 10 : ℝ) ≤ 1 / 10 ^ 6 := by norm_num
  obtain ⟨hgen, h3, h100, -, -⟩ :=
    sizing_law half_unit (2 / 10 ^ 10) he half_unit_accurate_to_real half_unit_accurate
  obtain ⟨eB, eH⟩ := law_values_half 1000 (by norm_num)
  obtain ⟨hp0, hp1, hl1, hl2⟩ := rate_log_range (1 / 2) (by norm_num) (by norm_num)
  have h1 := Real.log_two_gt_d9
  have h2 := Real.log_two_lt_d9
  norm_num at h1 h2
  have hcpos : 0 < Real.log 2 := by linarith only [h1]
  obtain ⟨-, -, hmk⟩ :=
    hgen 1000 (1 / 2) (by norm_num) (by norm_num) hp0 hp1 hl1 hl2 half_unit_log_accurate
  refine ⟨⟨he, half_unit_accurate_to_real, half_unit_accurate, half_unit_log_accurate⟩, ?_,
    h3 _ (by norm_num), h100 _ (by norm_num)⟩
  refine hmk 1442 1 ?_ ?_ (by norm_num) ?_ ?_
  · rw [eB, div_mul_eq_mul_div, le_div_iff₀ hcpos]
    push_cast
    linarith only [h2]
  · rw [eB, div_mul_eq_mul_div, div_lt_iff₀ hcpos]
    push_cast
    linarith only [h1]
  · rw [eH]
    norm_num
  · rw [eH]
    norm_num

end Bloomers
